import Mathlib

/-!
Verification of the VeedQueue operation queue / scheduler (src: veed-queue.js).

The JavaScript code is a single-threaded cooperative async program.  We embed
it as an explicit state machine: one transition of the machine is one
synchronous stretch of JS code between two `await` suspension points.  The
drain loop (`processQueue`) suspends in exactly two places — awaiting service
readiness and awaiting `executeWithTimeout` — so the scheduler's
continuation is recorded in a small program counter (`DrainPC`), and the
environment (the external Executor and the readiness initializer) resumes it
with a nondeterministically chosen outcome.  `enqueue`, `cancel`, `getStatus`
and the reaper sweep contain no `await` that touches queue state, so each is
one atomic transition; `enqueue` includes the synchronous prefix of the
`processQueue()` call it makes, exactly as the JS event loop would run it.

Ghost fields (`started`, `orphans`) record history only — no operation reads
them — and exist so that ordering / late-resolution properties can be stated.
-/

namespace VeedQueue

/-- The four record statuses (source: `OperationStatus` constant map). -/
inductive OperationStatus where
  | queued
  | processing
  | completed
  | failed
deriving DecidableEq, Repr

/-- The lowercase status strings used in user-facing messages. -/
def statusText : OperationStatus → String
  | .queued => "queued"
  | .processing => "processing"
  | .completed => "completed"
  | .failed => "failed"

/-- One operation record (source: the object literal built in `enqueue`).
`input` stands for the opaque `(imageUrl, prompt, options)` triple; `result`
is the opaque Executor payload. -/
structure Operation where
  id : Nat
  status : OperationStatus
  input : Nat
  createdAt : Nat
  updatedAt : Nat
  position : Nat
  result : Option Nat
  error : Option String
  progress : Option String
deriving DecidableEq, Repr

/-- Where the drain loop (`processQueue`) is suspended:
nowhere (`idle`), at `await this.initializeService()` (line 196), or at
`await this.executeWithTimeout(operation)` (line 227) for a given id. -/
inductive DrainPC where
  | idle
  | awaitingInit
  | awaitingExec (id : Nat)
deriving DecidableEq, Repr

/-- The whole queue state (source: the `VeedQueue` constructor fields).
`operations` is the insertion-ordered id → record map; `queue` the pending
id list; `nextId` models `crypto.randomUUID` freshness by a counter;
`time` models `Date.now()`.  `started` (ids in the order they entered
`Processing`) and `orphans` (ids whose Executor call outlived its timeout)
are ghost history. -/
structure QState where
  operations : List (Nat × Operation)
  queue : List Nat
  currentOperation : Option Nat
  isProcessing : Bool
  serviceReady : Bool
  nextId : Nat
  time : Nat
  started : List Nat
  orphans : List Nat
  dpc : DrainPC
deriving DecidableEq, Repr

/-- `this.maxQueueSize` (line 37). -/
def maxQueueSize : Nat := 10

/-- `this.operationTimeout` (line 34), in milliseconds. -/
def operationTimeout : Nat := 300000

/-- `this.operationTTL` (line 41), in milliseconds. -/
def operationTTL : Nat := 30 * 60 * 1000

/-- `Map.get`: first binding of the key (keys are kept duplicate-free). -/
def findOp : List (Nat × Operation) → Nat → Option Operation
  | [], _ => none
  | (k, v) :: rest, key => if k = key then some v else findOp rest key

/-- In-place update of the binding of a key (models mutating the record
object obtained from `Map.get`); identity when the key is absent. -/
def updOp : List (Nat × Operation) → Nat → (Operation → Operation) → List (Nat × Operation)
  | [], _, _ => []
  | (k, v) :: rest, key, f =>
      if k = key then (k, f v) :: rest else (k, v) :: updOp rest key f

/-- `this.queue.indexOf(id) + 1` (line 122): the 1-based position of the
first occurrence, `0` when absent (JS `indexOf` returns `-1` there). -/
def posInQueue : List Nat → Nat → Nat
  | [], _ => 0
  | a :: l, x =>
      if a = x then 1
      else
        let r := posInQueue l x
        if r = 0 then 0 else r + 1

/-- The freshly constructed queue (source: the constructor). -/
def initState : QState :=
  { operations := []
    queue := []
    currentOperation := none
    isProcessing := false
    serviceReady := false
    nextId := 0
    time := 0
    started := []
    orphans := []
    dpc := .idle }

/-- The synchronous body of the `while` loop of `processQueue`
(lines 193–243), run until the next suspension point or loop exit:
on an empty queue the pass ends (`isProcessing = false`); with the service
not ready it suspends awaiting initialization; otherwise it shifts the head,
marks it `Processing`, records it as current and suspends awaiting the
Executor.  The `!operation` guard (line 216) skips ids with no record.
The only mutation made before a recursive iteration is the shift itself, so
the recursion walks the pending list with the rest of the state fixed. -/
def drainGo (s : QState) : List Nat → QState
  | [] => { s with queue := [], isProcessing := false, dpc := .idle }
  | id :: rest =>
      if s.serviceReady then
        match findOp s.operations id with
        | none => drainGo s rest
        | some _ =>
            { s with
                queue := rest
                operations := updOp s.operations id
                  (fun op => { op with status := .processing, updatedAt := s.time })
                currentOperation := some id
                started := s.started ++ [id]
                dpc := .awaitingExec id }
      else { s with queue := id :: rest, dpc := .awaitingInit }

/-- Resume the `while` loop of `processQueue` on the current pending queue. -/
def drainLoop (s : QState) : QState := drainGo s s.queue

/-- `processQueue` entry (lines 186–191): return at once if a drain pass is
already running, otherwise start one and run it to its first suspension. -/
def processQueue (s : QState) : QState :=
  if s.isProcessing then s else drainLoop { s with isProcessing := true }

deriving instance DecidableEq for Except

/-- What `enqueue` resolves with (lines 104–109). -/
structure EnqueueOk where
  operationId : Nat
  status : OperationStatus
  position : Nat
  queueLength : Nat
deriving DecidableEq, Repr

/-- `enqueue` (lines 74–110).  The admission check counts pending queue
entries plus the in-flight operation; on success a fresh record is created
`Queued` and appended, then `this.processQueue()` is called — its
synchronous prefix runs before `enqueue` returns, so the returned `status`
and `queueLength` are read after that prefix (the record object is shared
by reference). -/
def enqueue (s : QState) (input : Nat) : Except String EnqueueOk × QState :=
  let pendingCount := s.queue.length + (if s.currentOperation.isSome then 1 else 0)
  if maxQueueSize ≤ pendingCount then
    (Except.error "Queue is full. Maximum 10 pending operations allowed.", s)
  else
    let operationId := s.nextId
    let op : Operation :=
      { id := operationId
        status := .queued
        input := input
        createdAt := s.time
        updatedAt := s.time
        position := s.queue.length + 1
        result := none
        error := none
        progress := none }
    let s1 : QState :=
      { s with
          operations := s.operations ++ [(operationId, op)]
          queue := s.queue ++ [operationId]
          nextId := operationId + 1 }
    let s2 := processQueue s1
    let statusNow :=
      match findOp s2.operations operationId with
      | some o => o.status
      | none => op.status
    (Except.ok
      { operationId := operationId
        status := statusNow
        position := op.position
        queueLength := s2.queue.length }, s2)

/-- The snapshot `getStatus` returns (lines 125–135). -/
structure StatusSnapshot where
  operationId : Nat
  status : OperationStatus
  position : Option Nat
  queueLength : Nat
  progress : Option String
  createdAt : Nat
  updatedAt : Nat
  result : Option Nat
  error : Option String
deriving DecidableEq, Repr

/-- `getStatus` (lines 113–136): `none` when the id is unknown, otherwise a
pure snapshot; the queue position is recomputed by scanning the pending
queue and reported only while `Queued`. -/
def getStatus (s : QState) (operationId : Nat) : Option StatusSnapshot :=
  match findOp s.operations operationId with
  | none => none
  | some op =>
      let position : Option Nat :=
        if op.status = .queued then some (posInQueue s.queue operationId) else none
      some
        { operationId := op.id
          status := op.status
          position := position
          queueLength := s.queue.length
          progress := op.progress
          createdAt := op.createdAt
          updatedAt := op.updatedAt
          result := op.result
          error := op.error }

/-- What `cancel` returns (lines 163, 167, 182). -/
structure CancelResult where
  success : Bool
  error : Option String
deriving DecidableEq, Repr

/-- `cancel` (lines 160–183): NotFound for an unknown id; InvalidState for a
record not `Queued`; otherwise remove the id from the pending queue
(`indexOf` + `splice` = erase of the first occurrence) and fail the record. -/
def cancel (s : QState) (operationId : Nat) : CancelResult × QState :=
  match findOp s.operations operationId with
  | none => ({ success := false, error := some "Operation not found" }, s)
  | some op =>
      if op.status = .queued then
        ({ success := true, error := none },
         { s with
             queue := s.queue.erase operationId
             operations := updOp s.operations operationId
               (fun o =>
                 { o with
                     status := .failed
                     error := some "Cancelled by user"
                     updatedAt := s.time }) })
      else
        ({ success := false
           error := some ("Cannot cancel operation in " ++ statusText op.status ++ " status") },
         s)

/-- The record mutation of the readiness-failure branch (lines 203–205). -/
def failQueuedOp (t : Nat) (op : Operation) : Operation :=
  { op with status := .failed, error := some "Veed service not available", updatedAt := t }

/-- The readiness-failure branch of the drain pass (lines 197–210): every id
still in the pending queue has its record failed with the fixed
service-unavailable error, the queue is emptied and the pass breaks out of
the loop (`isProcessing` drops). -/
def serviceFailSweep (s : QState) : QState :=
  { s with
      operations := s.queue.foldl (fun m id => updOp m id (failQueuedOp s.time)) s.operations
      queue := []
      serviceReady := false
      isProcessing := false
      dpc := .idle }

/-- How one `executeWithTimeout` race can settle (lines 249–257): the
Executor resolves first, the Executor rejects first, or the 5-minute timer
rejects first. -/
inductive ExecOutcome where
  | success (v : Nat)
  | failure (e : String)
  | timeout
deriving DecidableEq, Repr

/-- The record mutation of the try/catch around the Executor call
(lines 226–240). -/
def finishOp (o : ExecOutcome) (t : Nat) (op : Operation) : Operation :=
  match o with
  | .success v => { op with status := .completed, result := some v, updatedAt := t }
  | .failure e => { op with status := .failed, error := some e, updatedAt := t }
  | .timeout => { op with status := .failed, error := some "Operation timed out", updatedAt := t }

/-- `cleanupOldOperations` (lines 281–302): delete every record that is
terminal and whose `updatedAt` lies more than `operationTTL` in the past. -/
def cleanupOldOperations (s : QState) : QState :=
  { s with
      operations := s.operations.filter (fun q =>
        !(decide ((q.2.status = .completed ∨ q.2.status = .failed) ∧
            operationTTL < s.time - q.2.updatedAt))) }

/-- Ghost bookkeeping: a timed-out Executor call keeps running detached, so
its id is recorded as orphaned. -/
def orphansAfter (o : ExecOutcome) (orphans : List Nat) (id : Nat) : List Nat :=
  match o with
  | .timeout => orphans ++ [id]
  | _ => orphans

/-- The state right after the try/catch of one Executor resumption, before
the loop continues (lines 226–242). -/
def execFinish (s : QState) (id : Nat) (o : ExecOutcome) : QState :=
  { s with
      operations := updOp s.operations id (finishOp o s.time)
      currentOperation := none
      orphans := orphansAfter o s.orphans id }

/-- The atomic transitions of the system: the public API calls, the two
drain-loop resumptions (with an environment-chosen outcome), a progress
callback from the running Executor (lines 264–267), a progress callback or
resolution from an Executor call that already lost its timeout race (the
settled `Promise.race` discards the resolution, so it leaves the state
unchanged), the reaper sweep, and the clock advancing. -/
inductive Act where
  | enq (input : Nat)
  | cancelA (id : Nat)
  | resumeInitA (ready : Bool)
  | resumeExecA (o : ExecOutcome)
  | progressA (p : String)
  | lateProgressA (id : Nat) (p : String)
  | lateResolveA (id : Nat) (v : Nat)
  | sweep
  | tick (dt : Nat)
deriving DecidableEq, Repr

/-- One atomic step of the machine. -/
def stepA (s : QState) : Act → QState
  | .enq input => (enqueue s input).2
  | .cancelA id => (cancel s id).2
  | .resumeInitA ready =>
      match s.dpc with
      | .awaitingInit =>
          if ready then drainLoop { s with serviceReady := true }
          else serviceFailSweep s
      | _ => s
  | .resumeExecA o =>
      match s.dpc with
      | .awaitingExec id =>
          drainLoop
            { s with
                operations := updOp s.operations id (finishOp o s.time)
                currentOperation := none
                orphans := orphansAfter o s.orphans id }
      | _ => s
  | .progressA p =>
      match s.dpc with
      | .awaitingExec id =>
          { s with
              operations := updOp s.operations id
                (fun op => { op with progress := some p, updatedAt := s.time }) }
      | _ => s
  | .lateProgressA id p =>
      if id ∈ s.orphans then
        { s with
            operations := updOp s.operations id
              (fun op => { op with progress := some p, updatedAt := s.time }) }
      else s
  | .lateResolveA _ _ => s
  | .sweep => cleanupOldOperations s
  | .tick dt => { s with time := s.time + dt }

/-- One step by some action. -/
def StepR (s s' : QState) : Prop := ∃ a : Act, stepA s a = s'

/-- All states reachable from a given state. -/
def ReachableFrom (s s' : QState) : Prop := Relation.ReflTransGen StepR s s'

/-- All states reachable from the freshly constructed queue. -/
def Reachable (s : QState) : Prop := ReachableFrom initState s

theorem Reachable.start : Reachable initState := Relation.ReflTransGen.refl

theorem Reachable.step {s : QState} (h : Reachable s) (a : Act) : Reachable (stepA s a) :=
  Relation.ReflTransGen.tail h ⟨a, rfl⟩

/-! ### One equation lemma per `stepA` branch -/

theorem stepA_enq_full {s : QState} {input : Nat}
    (hcap : maxQueueSize ≤ s.queue.length + (if s.currentOperation.isSome then 1 else 0)) :
    stepA s (.enq input) = s := by
  simp [stepA, enqueue, hcap]

theorem stepA_enq_ok {s : QState} {input : Nat}
    (hcap : ¬maxQueueSize ≤ s.queue.length + (if s.currentOperation.isSome then 1 else 0)) :
    stepA s (.enq input) = processQueue
      { s with
          operations := s.operations ++
            [(s.nextId,
              { id := s.nextId, status := .queued, input := input, createdAt := s.time,
                updatedAt := s.time, position := s.queue.length + 1, result := none,
                error := none, progress := none })]
          queue := s.queue ++ [s.nextId]
          nextId := s.nextId + 1 } := by
  simp [stepA, enqueue, hcap]

theorem cancel_none_eq {s : QState} {id : Nat} (hfind : findOp s.operations id = none) :
    cancel s id = ({ success := false, error := some "Operation not found" }, s) := by
  simp [cancel, hfind]

theorem cancel_invalid_eq {s : QState} {id : Nat} {op : Operation}
    (hfind : findOp s.operations id = some op) (hst : op.status ≠ .queued) :
    cancel s id =
      ({ success := false
         error := some ("Cannot cancel operation in " ++ statusText op.status ++ " status") },
       s) := by
  simp [cancel, hfind, hst]

theorem cancel_ok_eq {s : QState} {id : Nat} {op : Operation}
    (hfind : findOp s.operations id = some op) (hst : op.status = .queued) :
    cancel s id =
      ({ success := true, error := none },
       { s with
           queue := s.queue.erase id
           operations := updOp s.operations id
             (fun o =>
               { o with
                   status := .failed
                   error := some "Cancelled by user"
                   updatedAt := s.time }) }) := by
  simp [cancel, hfind, hst]

theorem stepA_cancel_eq (s : QState) (id : Nat) :
    stepA s (.cancelA id) = (cancel s id).2 := rfl

theorem stepA_resumeInit_true {s : QState} (hd : s.dpc = .awaitingInit) :
    stepA s (.resumeInitA true) = drainLoop { s with serviceReady := true } := by
  simp [stepA, hd]

theorem stepA_resumeInit_false {s : QState} (hd : s.dpc = .awaitingInit) :
    stepA s (.resumeInitA false) = serviceFailSweep s := by
  simp [stepA, hd]

theorem stepA_resumeInit_skip {s : QState} {ready : Bool} (hd : s.dpc ≠ .awaitingInit) :
    stepA s (.resumeInitA ready) = s := by
  cases hdd : s.dpc with
  | idle => simp [stepA, hdd]
  | awaitingInit => exact absurd hdd hd
  | awaitingExec id => simp [stepA, hdd]

theorem stepA_resumeExec_eq {s : QState} {id : Nat} (hd : s.dpc = .awaitingExec id)
    (o : ExecOutcome) :
    stepA s (.resumeExecA o) = drainLoop (execFinish s id o) := by
  simp [stepA, hd, execFinish]

theorem stepA_resumeExec_skip {s : QState} {o : ExecOutcome}
    (hd : ∀ id, s.dpc ≠ .awaitingExec id) :
    stepA s (.resumeExecA o) = s := by
  cases hdd : s.dpc with
  | idle => simp [stepA, hdd]
  | awaitingInit => simp [stepA, hdd]
  | awaitingExec id => exact absurd hdd (hd id)

theorem stepA_progress_eq {s : QState} {id : Nat} {p : String}
    (hd : s.dpc = .awaitingExec id) :
    stepA s (.progressA p) =
      { s with
          operations := updOp s.operations id
            (fun op => { op with progress := some p, updatedAt := s.time }) } := by
  simp [stepA, hd]

theorem stepA_progress_skip {s : QState} {p : String}
    (hd : ∀ id, s.dpc ≠ .awaitingExec id) :
    stepA s (.progressA p) = s := by
  cases hdd : s.dpc with
  | idle => simp [stepA, hdd]
  | awaitingInit => simp [stepA, hdd]
  | awaitingExec id => exact absurd hdd (hd id)

theorem stepA_lateProgress_mem {s : QState} {id : Nat} {p : String}
    (hmem : id ∈ s.orphans) :
    stepA s (.lateProgressA id p) =
      { s with
          operations := updOp s.operations id
            (fun op => { op with progress := some p, updatedAt := s.time }) } := by
  simp [stepA, hmem]

theorem stepA_lateProgress_skip {s : QState} {id : Nat} {p : String}
    (hmem : id ∉ s.orphans) :
    stepA s (.lateProgressA id p) = s := by
  simp [stepA, hmem]

theorem stepA_lateResolve_eq (s : QState) (id v : Nat) :
    stepA s (.lateResolveA id v) = s := rfl

theorem stepA_sweep_eq (s : QState) : stepA s .sweep = cleanupOldOperations s := rfl

theorem stepA_tick_eq (s : QState) (dt : Nat) :
    stepA s (.tick dt) = { s with time := s.time + dt } := rfl

/-! ### Association-list lemmas -/

theorem findOp_updOp (m : List (Nat × Operation)) (k : Nat) (f : Operation → Operation)
    (k' : Nat) :
    findOp (updOp m k f) k' = if k' = k then (findOp m k).map f else findOp m k' := by
  induction m with
  | nil => simp [findOp, updOp]
  | cons hd tl ih =>
      obtain ⟨k0, v0⟩ := hd
      simp only [updOp]
      by_cases h0 : k0 = k
      · subst h0
        simp only [if_pos rfl]
        by_cases h1 : k' = k0
        · subst h1; simp [findOp]
        · simp [findOp, h1, Ne.symm h1]
      · simp only [if_neg h0]
        by_cases h1 : k' = k0
        · subst h1; simp [findOp, h0, Ne.symm h0]
        · simp [findOp, h0, h1, Ne.symm h1, ih]

theorem updOp_keys (m : List (Nat × Operation)) (k : Nat) (f : Operation → Operation) :
    (updOp m k f).map Prod.fst = m.map Prod.fst := by
  induction m with
  | nil => simp [updOp]
  | cons hd tl ih =>
      obtain ⟨k0, v0⟩ := hd
      by_cases h0 : k0 = k <;> simp [updOp, h0, ih]

theorem findOp_append (m l : List (Nat × Operation)) (k : Nat) :
    findOp (m ++ l) k =
      match findOp m k with
      | some v => some v
      | none => findOp l k := by
  induction m with
  | nil => simp [findOp]
  | cons hd tl ih =>
      obtain ⟨k0, v0⟩ := hd
      by_cases h0 : k0 = k <;> simp [findOp, h0, ih]

theorem findOp_mem {m : List (Nat × Operation)} {k : Nat} {v : Operation}
    (h : findOp m k = some v) : (k, v) ∈ m := by
  induction m with
  | nil => simp [findOp] at h
  | cons hd tl ih =>
      obtain ⟨k0, v0⟩ := hd
      by_cases h0 : k0 = k
      · subst h0
        simp [findOp] at h
        simp [h]
      · simp [findOp, h0] at h
        exact List.mem_cons_of_mem _ (ih h)

theorem findOp_isSome_of_mem_keys {m : List (Nat × Operation)} {k : Nat}
    (h : k ∈ m.map Prod.fst) : (findOp m k).isSome := by
  induction m with
  | nil => simp at h
  | cons hd tl ih =>
      obtain ⟨k0, v0⟩ := hd
      by_cases h0 : k0 = k
      · simp [findOp, h0]
      · rw [List.map_cons] at h
        rcases List.mem_cons.mp h with h1 | h1
        · exact absurd h1.symm h0
        · simpa [findOp, h0] using ih h1

theorem mem_keys_of_findOp {m : List (Nat × Operation)} {k : Nat} {v : Operation}
    (h : findOp m k = some v) : k ∈ m.map Prod.fst := by
  have := findOp_mem h
  exact List.mem_map.mpr ⟨(k, v), this, rfl⟩

theorem findOp_eq_some_of_mem {m : List (Nat × Operation)} {k : Nat} {v : Operation}
    (nd : (m.map Prod.fst).Nodup) (h : (k, v) ∈ m) : findOp m k = some v := by
  induction m with
  | nil => simp at h
  | cons hd tl ih =>
      obtain ⟨k0, v0⟩ := hd
      simp only [List.map_cons, List.nodup_cons] at nd
      rcases List.mem_cons.mp h with h1 | h1
      · injection h1 with hk hv
        subst hk; subst hv
        simp [findOp]
      · have hk : k0 ≠ k := by
          rintro rfl
          exact nd.1 (List.mem_map.mpr ⟨(k0, v), h1, rfl⟩)
        simp [findOp, hk, ih nd.2 h1]

theorem findOp_filter {m : List (Nat × Operation)} (nd : (m.map Prod.fst).Nodup)
    (p : Nat × Operation → Bool) (k : Nat) :
    findOp (m.filter p) k =
      match findOp m k with
      | some v => if p (k, v) then some v else none
      | none => none := by
  induction m with
  | nil => simp [findOp]
  | cons hd tl ih =>
      obtain ⟨k0, v0⟩ := hd
      simp only [List.map_cons, List.nodup_cons] at nd
      by_cases h0 : k0 = k
      · subst h0
        have hnone : findOp (tl.filter p) k0 = none := by
          cases hfind : findOp (tl.filter p) k0 with
          | none => rfl
          | some w =>
              have hm := findOp_mem hfind
              have hm' := List.of_mem_filter hm
              exact absurd (List.mem_map.mpr ⟨(k0, w), (List.mem_filter.mp hm).1, rfl⟩) nd.1
        by_cases hp : p (k0, v0) <;> simp [List.filter_cons, hp, findOp, hnone]
      · by_cases hp : p (k0, v0) <;> simp [List.filter_cons, hp, findOp, h0, ih nd.2]

theorem findOp_foldl_updOp (f : Operation → Operation) (hf : ∀ v, f (f v) = f v)
    (l : List Nat) (m : List (Nat × Operation)) (k : Nat) :
    findOp (l.foldl (fun m id => updOp m id f) m) k =
      if k ∈ l then (findOp m k).map f else findOp m k := by
  induction l generalizing m with
  | nil => simp
  | cons a t ih =>
      simp only [List.foldl_cons]
      rw [ih]
      by_cases ha : k = a
      · subst ha
        by_cases ht : k ∈ t
        · simp only [ht, if_pos, findOp_updOp, if_pos rfl, List.mem_cons, true_or, or_true]
          cases findOp m k <;> simp [hf]
        · simp [ht, findOp_updOp, List.mem_cons]
      · by_cases ht : k ∈ t <;> simp [ht, findOp_updOp, ha, List.mem_cons]

theorem foldl_updOp_keys (f : Operation → Operation) (l : List Nat)
    (m : List (Nat × Operation)) :
    (l.foldl (fun m id => updOp m id f) m).map Prod.fst = m.map Prod.fst := by
  induction l generalizing m with
  | nil => rfl
  | cons a t ih => simp [List.foldl_cons, ih, updOp_keys]

/-! ### The system invariant

`Inv` collects the facts that hold in every quiescent state of the machine
(that is, between atomic transitions).  The record-store facts are phrased
through `findOp`, the map-get of the embedding. -/

structure Inv (s : QState) : Prop where
  keysNodup : (s.operations.map Prod.fst).Nodup
  idMatch : ∀ k op, findOp s.operations k = some op → op.id = k
  keysLt : ∀ k op, findOp s.operations k = some op → k < s.nextId
  queueKeys : ∀ id ∈ s.queue, (findOp s.operations id).isSome
  queuedIff : ∀ k op, findOp s.operations k = some op → (op.status = .queued ↔ k ∈ s.queue)
  procCur : ∀ k op, findOp s.operations k = some op → op.status = .processing →
      s.currentOperation = some k
  curMem : ∀ k, s.currentOperation = some k →
      ∃ op, findOp s.operations k = some op ∧ op.status = .processing
  histSorted : (s.started ++ s.queue).Pairwise (· < ·)
  startedLt : ∀ id ∈ s.started, id < s.nextId
  resultIff : ∀ k op, findOp s.operations k = some op →
      (op.result.isSome ↔ op.status = .completed)
  errorIff : ∀ k op, findOp s.operations k = some op →
      (op.error.isSome ↔ op.status = .failed)
  updLe : ∀ k op, findOp s.operations k = some op → op.updatedAt ≤ s.time
  dpcIdle : s.dpc = .idle ↔ s.isProcessing = false
  dpcInit : s.dpc = .awaitingInit → s.currentOperation = none ∧ s.serviceReady = false
  curExec : ∀ k, s.currentOperation = some k →
      s.dpc = .awaitingExec k ∧ s.serviceReady = true
  dpcExec : ∀ k, s.dpc = .awaitingExec k → s.currentOperation = some k

/-- Precondition under which the drain loop is (re)entered: the store part of
the invariant together with "no operation is in flight" and "the pass is
marked running".  (`dpc` is about to be overwritten, so nothing is assumed
about it.) -/
structure DrainPre (s : QState) : Prop where
  keysNodup : (s.operations.map Prod.fst).Nodup
  idMatch : ∀ k op, findOp s.operations k = some op → op.id = k
  keysLt : ∀ k op, findOp s.operations k = some op → k < s.nextId
  queueKeys : ∀ id ∈ s.queue, (findOp s.operations id).isSome
  queuedIff : ∀ k op, findOp s.operations k = some op → (op.status = .queued ↔ k ∈ s.queue)
  noProc : ∀ k op, findOp s.operations k = some op → op.status ≠ .processing
  histSorted : (s.started ++ s.queue).Pairwise (· < ·)
  startedLt : ∀ id ∈ s.started, id < s.nextId
  resultIff : ∀ k op, findOp s.operations k = some op →
      (op.result.isSome ↔ op.status = .completed)
  errorIff : ∀ k op, findOp s.operations k = some op →
      (op.error.isSome ↔ op.status = .failed)
  updLe : ∀ k op, findOp s.operations k = some op → op.updatedAt ≤ s.time
  curNone : s.currentOperation = none
  isProc : s.isProcessing = true

theorem queue_nodup {s : QState} (h : (s.started ++ s.queue).Pairwise (· < ·)) :
    s.queue.Nodup := by
  have h2 : s.queue.Pairwise (· < ·) :=
    h.sublist (List.sublist_append_right s.started s.queue)
  exact h2.imp Nat.ne_of_lt

/-- Entering the drain loop from a well-formed quiescent store establishes
the full invariant at the next suspension point. -/
theorem drainGo_inv (s : QState) (q : List Nat) (hq : s.queue = q) (pre : DrainPre s) :
    Inv (drainGo s q) := by
  cases q with
  | nil =>
      refine
        { keysNodup := pre.keysNodup
          idMatch := pre.idMatch
          keysLt := pre.keysLt
          queueKeys := by simp [drainGo]
          queuedIff := by
            intro k op hop
            have := pre.queuedIff k op hop
            simpa [drainGo, hq] using this
          procCur := by
            intro k op hop hp
            exact absurd hp (pre.noProc k op hop)
          curMem := by
            intro k hk
            have hk' : s.currentOperation = some k := hk
            rw [pre.curNone] at hk'
            cases hk'
          histSorted := by
            have := pre.histSorted
            simpa [drainGo, hq] using this
          startedLt := pre.startedLt
          resultIff := pre.resultIff
          errorIff := pre.errorIff
          updLe := pre.updLe
          dpcIdle := by simp [drainGo]
          dpcInit := by simp [drainGo]
          curExec := by
            intro k hk
            have hk' : s.currentOperation = some k := hk
            rw [pre.curNone] at hk'
            cases hk'
          dpcExec := by simp [drainGo] }
  | cons id rest =>
      have hmem : id ∈ s.queue := by rw [hq]; exact List.mem_cons_self id rest
      have hqnodup : s.queue.Nodup := queue_nodup pre.histSorted
      have hidrest : id ∉ rest := by
        have := hqnodup
        rw [hq] at this
        exact (List.nodup_cons.mp this).1
      by_cases hready : s.serviceReady
      · obtain ⟨op, hop⟩ := Option.isSome_iff_exists.mp (pre.queueKeys id hmem)
        have hopq : op.status = .queued := (pre.queuedIff id op hop).mpr hmem
        simp only [drainGo, hready, if_true, hop]
        refine
          { keysNodup := by simpa [updOp_keys] using pre.keysNodup
            idMatch := by
              intro k op' hop'
              rw [findOp_updOp] at hop'
              by_cases hk : k = id
              · subst hk
                rw [if_pos rfl, hop] at hop'
                simp only [Option.map_some'] at hop'
                cases hop'
                exact pre.idMatch k op hop
              · rw [if_neg hk] at hop'
                exact pre.idMatch k op' hop'
            keysLt := by
              intro k op' hop'
              rw [findOp_updOp] at hop'
              by_cases hk : k = id
              · subst hk; exact pre.keysLt k op hop
              · rw [if_neg hk] at hop'
                exact pre.keysLt k op' hop'
            queueKeys := by
              intro id' hid'
              rw [findOp_updOp]
              by_cases hk : id' = id
              · simp [hk, hop]
              · rw [if_neg hk]
                exact pre.queueKeys id' (by rw [hq]; exact List.mem_cons_of_mem _ hid')
            queuedIff := by
              intro k op' hop'
              rw [findOp_updOp] at hop'
              by_cases hk : k = id
              · subst hk
                rw [if_pos rfl, hop] at hop'
                simp only [Option.map_some'] at hop'
                cases hop'
                simpa using hidrest
              · rw [if_neg hk] at hop'
                have h1 := pre.queuedIff k op' hop'
                rw [hq] at h1
                simp only [List.mem_cons] at h1
                simpa [hk] using h1
            procCur := by
              intro k op' hop' hp
              rw [findOp_updOp] at hop'
              by_cases hk : k = id
              · simp [hk]
              · rw [if_neg hk] at hop'
                exact absurd hp (pre.noProc k op' hop')
            curMem := by
              intro k hk
              simp only [Option.some.injEq] at hk
              subst hk
              refine ⟨{ op with status := .processing, updatedAt := s.time }, ?_, rfl⟩
              rw [findOp_updOp, if_pos rfl, hop]
              rfl
            histSorted := by
              have h1 := pre.histSorted
              rw [hq] at h1
              simpa [List.append_assoc] using h1
            startedLt := by
              intro id' hid'
              simp only [List.mem_append, List.mem_singleton] at hid'
              rcases hid' with h1 | h1
              · exact pre.startedLt id' h1
              · subst h1; exact pre.keysLt id' op hop
            resultIff := by
              intro k op' hop'
              rw [findOp_updOp] at hop'
              by_cases hk : k = id
              · subst hk
                rw [if_pos rfl, hop] at hop'
                simp only [Option.map_some'] at hop'
                cases hop'
                have h1 := pre.resultIff k op hop
                simp [hopq] at h1
                simp [h1]
              · rw [if_neg hk] at hop'
                exact pre.resultIff k op' hop'
            errorIff := by
              intro k op' hop'
              rw [findOp_updOp] at hop'
              by_cases hk : k = id
              · subst hk
                rw [if_pos rfl, hop] at hop'
                simp only [Option.map_some'] at hop'
                cases hop'
                have h1 := pre.errorIff k op hop
                simp [hopq] at h1
                simp [h1]
              · rw [if_neg hk] at hop'
                exact pre.errorIff k op' hop'
            updLe := by
              intro k op' hop'
              rw [findOp_updOp] at hop'
              by_cases hk : k = id
              · subst hk
                rw [if_pos rfl, hop] at hop'
                simp only [Option.map_some'] at hop'
                cases hop'
                exact Nat.le_refl _
              · rw [if_neg hk] at hop'
                exact pre.updLe k op' hop'
            dpcIdle := by simp [pre.isProc]
            dpcInit := by simp
            curExec := by
              intro k hk
              simp only [Option.some.injEq] at hk
              subst hk
              refine ⟨rfl, ?_⟩
              simp [hready]
            dpcExec := by
              intro k hk
              simp only [DrainPC.awaitingExec.injEq] at hk
              simp [hk] }
      · have hnone : findOp s.operations id ≠ none := by
          have := pre.queueKeys id hmem
          intro hcontra
          rw [hcontra] at this
          cases this
        simp only [drainGo, hready, if_false]
        exact
          { keysNodup := pre.keysNodup
            idMatch := pre.idMatch
            keysLt := pre.keysLt
            queueKeys := by
              intro id' hid'
              exact pre.queueKeys id' (by rwa [hq])
            queuedIff := by
              intro k op hop
              have h1 := pre.queuedIff k op hop
              rwa [hq] at h1
            procCur := by
              intro k op hop hp
              exact absurd hp (pre.noProc k op hop)
            curMem := by
              intro k hk
              have hk' : s.currentOperation = some k := hk
              rw [pre.curNone] at hk'
              cases hk'
            histSorted := by
              have h1 := pre.histSorted
              rw [hq] at h1
              exact h1
            startedLt := pre.startedLt
            resultIff := pre.resultIff
            errorIff := pre.errorIff
            updLe := pre.updLe
            dpcIdle := by simp [pre.isProc]
            dpcInit := by
              intro _
              exact ⟨pre.curNone, by simp [hready]⟩
            curExec := by
              intro k hk
              have hk' : s.currentOperation = some k := hk
              rw [pre.curNone] at hk'
              cases hk'
            dpcExec := by simp }

/-! ### Invariant preservation, one lemma per atomic transition -/

theorem findOp_fresh {s : QState} (inv : Inv s) {k : Nat} (h : s.nextId ≤ k) :
    findOp s.operations k = none := by
  cases hfind : findOp s.operations k with
  | none => rfl
  | some op => exact absurd (inv.keysLt k op hfind) (Nat.not_lt.mpr h)

theorem findOp_append_fresh {m : List (Nat × Operation)} {n : Nat} {op0 : Operation}
    (hfresh : findOp m n = none) (k : Nat) :
    findOp (m ++ [(n, op0)]) k = if k = n then some op0 else findOp m k := by
  rw [findOp_append]
  by_cases hk : k = n
  · subst hk; rw [hfresh]; simp [findOp]
  · cases hfind : findOp m k with
    | none => simp [findOp, Ne.symm hk, hk]
    | some v => simp [hk]

theorem Inv.noProcessing {s : QState} (inv : Inv s) (hc : s.currentOperation = none) :
    ∀ k op, findOp s.operations k = some op → op.status ≠ .processing := by
  intro k op hop hp
  have h := inv.procCur k op hop hp
  rw [hc] at h
  cases h

theorem Inv.curNone_of_notProcessing {s : QState} (inv : Inv s)
    (h : s.isProcessing = false) : s.currentOperation = none := by
  cases hc : s.currentOperation with
  | none => rfl
  | some k =>
      have hd := (inv.curExec k hc).1
      have hidle := inv.dpcIdle.mpr h
      rw [hidle] at hd
      cases hd

theorem Inv.isProcessing_of_dpc {s : QState} (inv : Inv s) (h : s.dpc ≠ .idle) :
    s.isProcessing = true := by
  cases hp : s.isProcessing with
  | true => rfl
  | false => exact absurd (inv.dpcIdle.mpr hp) h

/-- Inserting a fresh `Queued` record (the store mutation of `enqueue`)
preserves the invariant. -/
theorem inv_insert {s : QState} (inv : Inv s) (op0 : Operation)
    (hid : op0.id = s.nextId) (hst : op0.status = .queued) (hres : op0.result = none)
    (herr : op0.error = none) (hupd : op0.updatedAt ≤ s.time) :
    Inv { s with
            operations := s.operations ++ [(s.nextId, op0)]
            queue := s.queue ++ [s.nextId]
            nextId := s.nextId + 1 } := by
  have hfresh : findOp s.operations s.nextId = none := findOp_fresh inv (Nat.le_refl _)
  have hfind := fun k => @findOp_append_fresh s.operations s.nextId op0 hfresh k
  have hqlt : ∀ id ∈ s.queue, id < s.nextId := by
    intro id hmem
    obtain ⟨op, hop⟩ := Option.isSome_iff_exists.mp (inv.queueKeys id hmem)
    exact inv.keysLt id op hop
  refine
    { keysNodup := ?_
      idMatch := ?_
      keysLt := ?_
      queueKeys := ?_
      queuedIff := ?_
      procCur := ?_
      curMem := ?_
      histSorted := ?_
      startedLt := ?_
      resultIff := ?_
      errorIff := ?_
      updLe := ?_
      dpcIdle := inv.dpcIdle
      dpcInit := inv.dpcInit
      curExec := inv.curExec
      dpcExec := inv.dpcExec }
  · rw [List.map_append]
    refine List.Nodup.append inv.keysNodup (by simp) ?_
    intro a ha hb
    simp only [List.map_cons, List.map_nil, List.mem_singleton] at hb
    subst hb
    have := findOp_isSome_of_mem_keys ha
    rw [hfresh] at this
    cases this
  · intro k op hop
    rw [hfind k] at hop
    by_cases hk : k = s.nextId
    · rw [if_pos hk] at hop
      cases hop
      rw [hid, hk]
    · rw [if_neg hk] at hop
      exact inv.idMatch k op hop
  · intro k op hop
    rw [hfind k] at hop
    by_cases hk : k = s.nextId
    · subst hk
      exact Nat.lt_succ_self _
    · rw [if_neg hk] at hop
      exact Nat.lt_succ_of_lt (inv.keysLt k op hop)
  · intro id hmem
    rw [hfind id]
    rcases List.mem_append.mp hmem with h1 | h1
    · by_cases hk : id = s.nextId
      · simp [hk]
      · rw [if_neg hk]
        exact inv.queueKeys id h1
    · simp only [List.mem_singleton] at h1
      simp [h1]
  · intro k op hop
    rw [hfind k] at hop
    by_cases hk : k = s.nextId
    · rw [if_pos hk] at hop
      cases hop
      subst hk
      simp [hst]
    · rw [if_neg hk] at hop
      have h1 := inv.queuedIff k op hop
      constructor
      · intro h2
        exact List.mem_append.mpr (Or.inl (h1.mp h2))
      · intro h2
        rcases List.mem_append.mp h2 with h3 | h3
        · exact h1.mpr h3
        · simp only [List.mem_singleton] at h3
          exact absurd h3 hk
  · intro k op hop hp
    rw [hfind k] at hop
    by_cases hk : k = s.nextId
    · rw [if_pos hk] at hop
      cases hop
      rw [hst] at hp
      cases hp
    · rw [if_neg hk] at hop
      exact inv.procCur k op hop hp
  · intro k hk
    obtain ⟨op, hop, hops⟩ := inv.curMem k hk
    refine ⟨op, ?_, hops⟩
    rw [hfind k, if_neg]
    · exact hop
    · intro h1
      rw [h1, hfresh] at hop
      cases hop
  · have h1 := inv.histSorted
    rw [← List.append_assoc]
    rw [List.pairwise_append]
    refine ⟨h1, by simp, ?_⟩
    intro a ha b hb
    simp only [List.mem_singleton] at hb
    subst hb
    rcases List.mem_append.mp ha with h2 | h2
    · exact inv.startedLt a h2
    · exact hqlt a h2
  · intro id hmem
    exact Nat.lt_succ_of_lt (inv.startedLt id hmem)
  · intro k op hop
    rw [hfind k] at hop
    by_cases hk : k = s.nextId
    · rw [if_pos hk] at hop
      cases hop
      simp [hres, hst]
    · rw [if_neg hk] at hop
      exact inv.resultIff k op hop
  · intro k op hop
    rw [hfind k] at hop
    by_cases hk : k = s.nextId
    · rw [if_pos hk] at hop
      cases hop
      simp [herr, hst]
    · rw [if_neg hk] at hop
      exact inv.errorIff k op hop
  · intro k op hop
    rw [hfind k] at hop
    by_cases hk : k = s.nextId
    · rw [if_pos hk] at hop
      cases hop
      exact hupd
    · rw [if_neg hk] at hop
      exact inv.updLe k op hop

theorem inv_processQueue {s : QState} (inv : Inv s) : Inv (processQueue s) := by
  unfold processQueue
  by_cases hp : s.isProcessing
  · simpa [hp] using inv
  · simp only [hp, if_false, Bool.false_eq_true, drainLoop]
    have hb : s.isProcessing = false := by simpa using hp
    have hcur : s.currentOperation = none := inv.curNone_of_notProcessing hb
    refine drainGo_inv _ _ rfl ?_
    exact
      { keysNodup := inv.keysNodup
        idMatch := inv.idMatch
        keysLt := inv.keysLt
        queueKeys := inv.queueKeys
        queuedIff := inv.queuedIff
        noProc := inv.noProcessing hcur
        histSorted := inv.histSorted
        startedLt := inv.startedLt
        resultIff := inv.resultIff
        errorIff := inv.errorIff
        updLe := inv.updLe
        curNone := hcur
        isProc := rfl }

theorem inv_enqueue {s : QState} (inv : Inv s) (input : Nat) :
    Inv (enqueue s input).2 := by
  unfold enqueue
  by_cases hcap :
      maxQueueSize ≤ s.queue.length + (if s.currentOperation.isSome then 1 else 0)
  · simpa [hcap] using inv
  · simp only [hcap, if_false]
    exact inv_processQueue (inv_insert inv _ rfl rfl rfl rfl (Nat.le_refl _))

theorem inv_cancel {s : QState} (inv : Inv s) (id : Nat) : Inv (cancel s id).2 := by
  cases hfind : findOp s.operations id with
  | none =>
      have h : (cancel s id).2 = s := by simp [cancel, hfind]
      rw [h]
      exact inv
  | some op =>
      by_cases hst : op.status = .queued
      · rw [show (cancel s id).2 =
            { s with
                queue := s.queue.erase id
                operations := updOp s.operations id
                  (fun o =>
                    { o with
                        status := .failed
                        error := some "Cancelled by user"
                        updatedAt := s.time }) } from by simp [cancel, hfind, hst]]
        have hmem : id ∈ s.queue := (inv.queuedIff id op hfind).mp hst
        have hqnodup : s.queue.Nodup := queue_nodup inv.histSorted
        have hupd := fun k =>
          findOp_updOp s.operations id
            (fun o : Operation =>
              { o with
                  status := .failed
                  error := some "Cancelled by user"
                  updatedAt := s.time }) k
        refine
          { keysNodup := by simpa [updOp_keys] using inv.keysNodup
            idMatch := ?_
            keysLt := ?_
            queueKeys := ?_
            queuedIff := ?_
            procCur := ?_
            curMem := ?_
            histSorted := ?_
            startedLt := inv.startedLt
            resultIff := ?_
            errorIff := ?_
            updLe := ?_
            dpcIdle := inv.dpcIdle
            dpcInit := inv.dpcInit
            curExec := inv.curExec
            dpcExec := inv.dpcExec }
        · intro k op' hop'
          rw [hupd k] at hop'
          by_cases hk : k = id
          · subst hk
            rw [if_pos rfl, hfind] at hop'
            simp only [Option.map_some'] at hop'
            cases hop'
            exact inv.idMatch k op hfind
          · rw [if_neg hk] at hop'
            exact inv.idMatch k op' hop'
        · intro k op' hop'
          rw [hupd k] at hop'
          by_cases hk : k = id
          · subst hk
            exact inv.keysLt k op hfind
          · rw [if_neg hk] at hop'
            exact inv.keysLt k op' hop'
        · intro id' hid'
          have h1 : id' ∈ s.queue := List.mem_of_mem_erase hid'
          rw [hupd id']
          by_cases hk : id' = id
          · simp [hk, hfind]
          · rw [if_neg hk]
            exact inv.queueKeys id' h1
        · intro k op' hop'
          rw [hupd k] at hop'
          by_cases hk : k = id
          · subst hk
            rw [if_pos rfl, hfind] at hop'
            simp only [Option.map_some'] at hop'
            cases hop'
            constructor
            · intro h2
              simp at h2
            · intro h2
              exact absurd ((List.Nodup.mem_erase_iff hqnodup).mp h2).1 (by simp)
          · rw [if_neg hk] at hop'
            rw [List.Nodup.mem_erase_iff hqnodup]
            have h1 := inv.queuedIff k op' hop'
            constructor
            · intro h2
              exact ⟨hk, h1.mp h2⟩
            · intro h2
              exact h1.mpr h2.2
        · intro k op' hop' hp
          rw [hupd k] at hop'
          by_cases hk : k = id
          · subst hk
            rw [if_pos rfl, hfind] at hop'
            simp only [Option.map_some'] at hop'
            cases hop'
            simp at hp
          · rw [if_neg hk] at hop'
            exact inv.procCur k op' hop' hp
        · intro k hk
          obtain ⟨op', hop', hops⟩ := inv.curMem k hk
          have hne : k ≠ id := by
            intro h1
            rw [h1, hfind] at hop'
            cases hop'
            rw [hst] at hops
            cases hops
          refine ⟨op', ?_, hops⟩
          rw [hupd k, if_neg hne]
          exact hop'
        · exact inv.histSorted.sublist
            ((List.erase_sublist id s.queue).append_left s.started)
        · intro k op' hop'
          rw [hupd k] at hop'
          by_cases hk : k = id
          · subst hk
            rw [if_pos rfl, hfind] at hop'
            simp only [Option.map_some'] at hop'
            cases hop'
            have h1 := inv.resultIff k op hfind
            rw [hst] at h1
            have h2 : op.result = none := by
              cases hres : op.result with
              | none => rfl
              | some v =>
                  have h3 := h1.mp (by rw [hres]; rfl)
                  cases h3
            simp [h2]
          · rw [if_neg hk] at hop'
            exact inv.resultIff k op' hop'
        · intro k op' hop'
          rw [hupd k] at hop'
          by_cases hk : k = id
          · subst hk
            rw [if_pos rfl, hfind] at hop'
            simp only [Option.map_some'] at hop'
            cases hop'
            simp
          · rw [if_neg hk] at hop'
            exact inv.errorIff k op' hop'
        · intro k op' hop'
          rw [hupd k] at hop'
          by_cases hk : k = id
          · subst hk
            rw [if_pos rfl, hfind] at hop'
            simp only [Option.map_some'] at hop'
            cases hop'
            exact Nat.le_refl _
          · rw [if_neg hk] at hop'
            exact inv.updLe k op' hop'
      · have h : (cancel s id).2 = s := by simp [cancel, hfind, hst]
        rw [h]
        exact inv

theorem result_none_of_status {s : QState} (inv : Inv s) {k : Nat} {op : Operation}
    (hop : findOp s.operations k = some op) (h : op.status ≠ .completed) :
    op.result = none := by
  cases hres : op.result with
  | none => rfl
  | some v => exact absurd ((inv.resultIff k op hop).mp (by rw [hres]; rfl)) h

theorem error_none_of_status {s : QState} (inv : Inv s) {k : Nat} {op : Operation}
    (hop : findOp s.operations k = some op) (h : op.status ≠ .failed) :
    op.error = none := by
  cases herr : op.error with
  | none => rfl
  | some v => exact absurd ((inv.errorIff k op hop).mp (by rw [herr]; rfl)) h

theorem finishOp_id (o : ExecOutcome) (t : Nat) (op : Operation) :
    (finishOp o t op).id = op.id := by cases o <;> rfl

theorem finishOp_updatedAt (o : ExecOutcome) (t : Nat) (op : Operation) :
    (finishOp o t op).updatedAt = t := by cases o <;> rfl

theorem finishOp_not_queued (o : ExecOutcome) (t : Nat) (op : Operation) :
    (finishOp o t op).status ≠ .queued := by cases o <;> simp [finishOp]

theorem finishOp_not_processing (o : ExecOutcome) (t : Nat) (op : Operation) :
    (finishOp o t op).status ≠ .processing := by cases o <;> simp [finishOp]

theorem finishOp_resultIff (o : ExecOutcome) (t : Nat) (op : Operation)
    (hres : op.result = none) :
    ((finishOp o t op).result.isSome ↔ (finishOp o t op).status = .completed) := by
  cases o <;> simp [finishOp, hres]

theorem finishOp_errorIff (o : ExecOutcome) (t : Nat) (op : Operation)
    (herr : op.error = none) :
    ((finishOp o t op).error.isSome ↔ (finishOp o t op).status = .failed) := by
  cases o <;> simp [finishOp, herr]

/-- A progress callback (live or orphaned) only touches `progress` and
`updatedAt`, so it preserves the invariant. -/
theorem inv_progressUpd {s : QState} (inv : Inv s) (pid : Nat) (p : String) :
    Inv { s with
            operations := updOp s.operations pid
              (fun op => { op with progress := some p, updatedAt := s.time }) } := by
  have hupd := fun k =>
    findOp_updOp s.operations pid
      (fun op : Operation => { op with progress := some p, updatedAt := s.time }) k
  refine
    { keysNodup := by simpa [updOp_keys] using inv.keysNodup
      idMatch := ?_
      keysLt := ?_
      queueKeys := ?_
      queuedIff := ?_
      procCur := ?_
      curMem := ?_
      histSorted := inv.histSorted
      startedLt := inv.startedLt
      resultIff := ?_
      errorIff := ?_
      updLe := ?_
      dpcIdle := inv.dpcIdle
      dpcInit := inv.dpcInit
      curExec := inv.curExec
      dpcExec := inv.dpcExec }
  · intro k op' hop'
    rw [hupd k] at hop'
    by_cases hk : k = pid
    · subst hk
      cases hfind : findOp s.operations k with
      | none => rw [hfind] at hop'; simp at hop'
      | some op =>
          rw [if_pos rfl, hfind] at hop'
          simp only [Option.map_some'] at hop'
          cases hop'
          exact inv.idMatch k op hfind
    · rw [if_neg hk] at hop'
      exact inv.idMatch k op' hop'
  · intro k op' hop'
    rw [hupd k] at hop'
    by_cases hk : k = pid
    · subst hk
      cases hfind : findOp s.operations k with
      | none => rw [hfind] at hop'; simp at hop'
      | some op => exact inv.keysLt k op hfind
    · rw [if_neg hk] at hop'
      exact inv.keysLt k op' hop'
  · intro k hmem
    rw [hupd k]
    by_cases hk : k = pid
    · subst hk
      have h1 := inv.queueKeys k hmem
      rw [if_pos rfl]
      cases hfind : findOp s.operations k with
      | none => rw [hfind] at h1; cases h1
      | some op => simp
    · rw [if_neg hk]
      exact inv.queueKeys k hmem
  · intro k op' hop'
    rw [hupd k] at hop'
    by_cases hk : k = pid
    · subst hk
      cases hfind : findOp s.operations k with
      | none => rw [hfind] at hop'; simp at hop'
      | some op =>
          rw [if_pos rfl, hfind] at hop'
          simp only [Option.map_some'] at hop'
          cases hop'
          exact inv.queuedIff k op hfind
    · rw [if_neg hk] at hop'
      exact inv.queuedIff k op' hop'
  · intro k op' hop' hp
    rw [hupd k] at hop'
    by_cases hk : k = pid
    · subst hk
      cases hfind : findOp s.operations k with
      | none => rw [hfind] at hop'; simp at hop'
      | some op =>
          rw [if_pos rfl, hfind] at hop'
          simp only [Option.map_some'] at hop'
          cases hop'
          exact inv.procCur k op hfind hp
    · rw [if_neg hk] at hop'
      exact inv.procCur k op' hop' hp
  · intro k hk
    obtain ⟨op, hop, hproc⟩ := inv.curMem k hk
    rw [hupd k]
    by_cases hkp : k = pid
    · subst hkp
      rw [if_pos rfl, hop]
      exact ⟨_, rfl, hproc⟩
    · rw [if_neg hkp]
      exact ⟨op, hop, hproc⟩
  · intro k op' hop'
    rw [hupd k] at hop'
    by_cases hk : k = pid
    · subst hk
      cases hfind : findOp s.operations k with
      | none => rw [hfind] at hop'; simp at hop'
      | some op =>
          rw [if_pos rfl, hfind] at hop'
          simp only [Option.map_some'] at hop'
          cases hop'
          exact inv.resultIff k op hfind
    · rw [if_neg hk] at hop'
      exact inv.resultIff k op' hop'
  · intro k op' hop'
    rw [hupd k] at hop'
    by_cases hk : k = pid
    · subst hk
      cases hfind : findOp s.operations k with
      | none => rw [hfind] at hop'; simp at hop'
      | some op =>
          rw [if_pos rfl, hfind] at hop'
          simp only [Option.map_some'] at hop'
          cases hop'
          exact inv.errorIff k op hfind
    · rw [if_neg hk] at hop'
      exact inv.errorIff k op' hop'
  · intro k op' hop'
    rw [hupd k] at hop'
    by_cases hk : k = pid
    · subst hk
      cases hfind : findOp s.operations k with
      | none => rw [hfind] at hop'; simp at hop'
      | some op =>
          rw [if_pos rfl, hfind] at hop'
          simp only [Option.map_some'] at hop'
          cases hop'
          exact Nat.le_refl _
    · rw [if_neg hk] at hop'
      exact inv.updLe k op' hop'

theorem failQueuedOp_idem (t : Nat) : ∀ v, failQueuedOp t (failQueuedOp t v) = failQueuedOp t v :=
  fun _ => rfl

/-- The readiness-failure cohort sweep preserves the invariant. -/
theorem inv_serviceFail {s : QState} (inv : Inv s) (hd : s.dpc = .awaitingInit) :
    Inv (serviceFailSweep s) := by
  obtain ⟨hcur, _⟩ := inv.dpcInit hd
  have hmark := fun k =>
    findOp_foldl_updOp (failQueuedOp s.time) (failQueuedOp_idem s.time) s.queue s.operations k
  have hqrec : ∀ k, k ∈ s.queue → ∃ op, findOp s.operations k = some op ∧ op.status = .queued := by
    intro k hk
    obtain ⟨op, hop⟩ := Option.isSome_iff_exists.mp (inv.queueKeys k hk)
    exact ⟨op, hop, (inv.queuedIff k op hop).mpr hk⟩
  refine
    { keysNodup := by
        simpa [serviceFailSweep, foldl_updOp_keys] using inv.keysNodup
      idMatch := ?_
      keysLt := ?_
      queueKeys := by simp [serviceFailSweep]
      queuedIff := ?_
      procCur := ?_
      curMem := ?_
      histSorted := by
        simp only [serviceFailSweep, List.append_nil]
        exact inv.histSorted.sublist (List.sublist_append_left s.started s.queue)
      startedLt := inv.startedLt
      resultIff := ?_
      errorIff := ?_
      updLe := ?_
      dpcIdle := by simp [serviceFailSweep]
      dpcInit := by simp [serviceFailSweep]
      curExec := ?_
      dpcExec := by simp [serviceFailSweep] }
  · intro k op' hop'
    rw [show (serviceFailSweep s).operations =
        s.queue.foldl (fun m id => updOp m id (failQueuedOp s.time)) s.operations from rfl,
      hmark k] at hop'
    by_cases hk : k ∈ s.queue
    · rw [if_pos hk] at hop'
      obtain ⟨op, hop, _⟩ := hqrec k hk
      rw [hop] at hop'
      simp only [Option.map_some'] at hop'
      cases hop'
      exact inv.idMatch k op hop
    · rw [if_neg hk] at hop'
      exact inv.idMatch k op' hop'
  · intro k op' hop'
    rw [show (serviceFailSweep s).operations =
        s.queue.foldl (fun m id => updOp m id (failQueuedOp s.time)) s.operations from rfl,
      hmark k] at hop'
    by_cases hk : k ∈ s.queue
    · rw [if_pos hk] at hop'
      obtain ⟨op, hop, _⟩ := hqrec k hk
      rw [hop] at hop'
      simp only [Option.map_some'] at hop'
      cases hop'
      exact inv.keysLt k op hop
    · rw [if_neg hk] at hop'
      exact inv.keysLt k op' hop'
  · intro k op' hop'
    rw [show (serviceFailSweep s).operations =
        s.queue.foldl (fun m id => updOp m id (failQueuedOp s.time)) s.operations from rfl,
      hmark k] at hop'
    by_cases hk : k ∈ s.queue
    · rw [if_pos hk] at hop'
      obtain ⟨op, hop, _⟩ := hqrec k hk
      rw [hop] at hop'
      simp only [Option.map_some'] at hop'
      cases hop'
      simp [serviceFailSweep, failQueuedOp]
    · rw [if_neg hk] at hop'
      have h1 := inv.queuedIff k op' hop'
      simp only [serviceFailSweep, List.not_mem_nil, iff_false]
      intro h2
      exact hk (h1.mp h2)
  · intro k op' hop' hp
    rw [show (serviceFailSweep s).operations =
        s.queue.foldl (fun m id => updOp m id (failQueuedOp s.time)) s.operations from rfl,
      hmark k] at hop'
    by_cases hk : k ∈ s.queue
    · rw [if_pos hk] at hop'
      obtain ⟨op, hop, _⟩ := hqrec k hk
      rw [hop] at hop'
      simp only [Option.map_some'] at hop'
      cases hop'
      simp [failQueuedOp] at hp
    · rw [if_neg hk] at hop'
      have h1 := inv.procCur k op' hop' hp
      rw [hcur] at h1
      cases h1
  · intro k hk
    have hk' : s.currentOperation = some k := hk
    rw [hcur] at hk'
    cases hk'
  · intro k op' hop'
    rw [show (serviceFailSweep s).operations =
        s.queue.foldl (fun m id => updOp m id (failQueuedOp s.time)) s.operations from rfl,
      hmark k] at hop'
    by_cases hk : k ∈ s.queue
    · rw [if_pos hk] at hop'
      obtain ⟨op, hop, hql⟩ := hqrec k hk
      rw [hop] at hop'
      simp only [Option.map_some'] at hop'
      cases hop'
      have h2 : op.result = none :=
        result_none_of_status inv hop (by rw [hql]; intro h; cases h)
      simp [failQueuedOp, h2]
    · rw [if_neg hk] at hop'
      exact inv.resultIff k op' hop'
  · intro k op' hop'
    rw [show (serviceFailSweep s).operations =
        s.queue.foldl (fun m id => updOp m id (failQueuedOp s.time)) s.operations from rfl,
      hmark k] at hop'
    by_cases hk : k ∈ s.queue
    · rw [if_pos hk] at hop'
      obtain ⟨op, hop, _⟩ := hqrec k hk
      rw [hop] at hop'
      simp only [Option.map_some'] at hop'
      cases hop'
      simp [failQueuedOp]
    · rw [if_neg hk] at hop'
      exact inv.errorIff k op' hop'
  · intro k op' hop'
    rw [show (serviceFailSweep s).operations =
        s.queue.foldl (fun m id => updOp m id (failQueuedOp s.time)) s.operations from rfl,
      hmark k] at hop'
    by_cases hk : k ∈ s.queue
    · rw [if_pos hk] at hop'
      obtain ⟨op, hop, _⟩ := hqrec k hk
      rw [hop] at hop'
      simp only [Option.map_some'] at hop'
      cases hop'
      exact Nat.le_refl _
    · rw [if_neg hk] at hop'
      exact inv.updLe k op' hop'
  · intro k hk
    have hk' : s.currentOperation = some k := hk
    rw [hcur] at hk'
    cases hk'

/-- Resuming from a finished (or timed-out) Executor call preserves the
invariant: the current record is finalized and the drain loop continues. -/
theorem inv_resumeExec {s : QState} (inv : Inv s) {id : Nat}
    (hd : s.dpc = .awaitingExec id) (o : ExecOutcome) :
    Inv (drainLoop
      { s with
          operations := updOp s.operations id (finishOp o s.time)
          currentOperation := none
          orphans := orphansAfter o s.orphans id }) := by
  have hcur : s.currentOperation = some id := inv.dpcExec id hd
  obtain ⟨op, hop, hproc⟩ := inv.curMem id hcur
  have hidq : id ∉ s.queue := by
    intro hmem
    have h1 := (inv.queuedIff id op hop).mpr hmem
    rw [hproc] at h1
    cases h1
  have hupd := fun k => findOp_updOp s.operations id (finishOp o s.time) k
  have hisp : s.isProcessing = true :=
    inv.isProcessing_of_dpc (by rw [hd]; intro h; cases h)
  refine drainGo_inv _ _ rfl ?_
  refine
    { keysNodup := by simpa [updOp_keys] using inv.keysNodup
      idMatch := ?_
      keysLt := ?_
      queueKeys := ?_
      queuedIff := ?_
      noProc := ?_
      histSorted := inv.histSorted
      startedLt := inv.startedLt
      resultIff := ?_
      errorIff := ?_
      updLe := ?_
      curNone := rfl
      isProc := hisp }
  · intro k op' hop'
    rw [hupd k] at hop'
    by_cases hk : k = id
    · subst hk
      rw [if_pos rfl, hop] at hop'
      simp only [Option.map_some'] at hop'
      cases hop'
      rw [finishOp_id]
      exact inv.idMatch k op hop
    · rw [if_neg hk] at hop'
      exact inv.idMatch k op' hop'
  · intro k op' hop'
    rw [hupd k] at hop'
    by_cases hk : k = id
    · subst hk
      exact inv.keysLt k op hop
    · rw [if_neg hk] at hop'
      exact inv.keysLt k op' hop'
  · intro k hmem
    rw [hupd k]
    by_cases hk : k = id
    · subst hk
      rw [if_pos rfl, hop]
      simp
    · rw [if_neg hk]
      exact inv.queueKeys k hmem
  · intro k op' hop'
    rw [hupd k] at hop'
    by_cases hk : k = id
    · subst hk
      rw [if_pos rfl, hop] at hop'
      simp only [Option.map_some'] at hop'
      cases hop'
      constructor
      · intro h1
        exact absurd h1 (finishOp_not_queued o s.time op)
      · intro h1
        exact absurd h1 hidq
    · rw [if_neg hk] at hop'
      exact inv.queuedIff k op' hop'
  · intro k op' hop'
    rw [hupd k] at hop'
    by_cases hk : k = id
    · subst hk
      rw [if_pos rfl, hop] at hop'
      simp only [Option.map_some'] at hop'
      cases hop'
      exact finishOp_not_processing o s.time op
    · rw [if_neg hk] at hop'
      intro hp
      have h1 := inv.procCur k op' hop' hp
      rw [hcur] at h1
      simp only [Option.some.injEq] at h1
      exact hk h1.symm
  · intro k op' hop'
    rw [hupd k] at hop'
    by_cases hk : k = id
    · subst hk
      rw [if_pos rfl, hop] at hop'
      simp only [Option.map_some'] at hop'
      cases hop'
      exact finishOp_resultIff o s.time op
        (result_none_of_status inv hop (by rw [hproc]; intro h; cases h))
    · rw [if_neg hk] at hop'
      exact inv.resultIff k op' hop'
  · intro k op' hop'
    rw [hupd k] at hop'
    by_cases hk : k = id
    · subst hk
      rw [if_pos rfl, hop] at hop'
      simp only [Option.map_some'] at hop'
      cases hop'
      exact finishOp_errorIff o s.time op
        (error_none_of_status inv hop (by rw [hproc]; intro h; cases h))
    · rw [if_neg hk] at hop'
      exact inv.errorIff k op' hop'
  · intro k op' hop'
    rw [hupd k] at hop'
    by_cases hk : k = id
    · subst hk
      rw [if_pos rfl, hop] at hop'
      simp only [Option.map_some'] at hop'
      cases hop'
      rw [finishOp_updatedAt]
    · rw [if_neg hk] at hop'
      exact inv.updLe k op' hop'

/-- Resuming from a successful readiness initialization preserves the
invariant. -/
theorem inv_resumeInit_true {s : QState} (inv : Inv s) (hd : s.dpc = .awaitingInit) :
    Inv (drainLoop { s with serviceReady := true }) := by
  obtain ⟨hcur, _⟩ := inv.dpcInit hd
  refine drainGo_inv _ _ rfl ?_
  exact
    { keysNodup := inv.keysNodup
      idMatch := inv.idMatch
      keysLt := inv.keysLt
      queueKeys := inv.queueKeys
      queuedIff := inv.queuedIff
      noProc := inv.noProcessing hcur
      histSorted := inv.histSorted
      startedLt := inv.startedLt
      resultIff := inv.resultIff
      errorIff := inv.errorIff
      updLe := inv.updLe
      curNone := hcur
      isProc := inv.isProcessing_of_dpc (by rw [hd]; intro h; cases h) }

/-- The reaper sweep preserves the invariant: it removes only terminal
records. -/
theorem inv_sweep {s : QState} (inv : Inv s) : Inv (cleanupOldOperations s) := by
  have hfil := fun k => findOp_filter inv.keysNodup
    (fun q => !(decide ((q.2.status = .completed ∨ q.2.status = .failed) ∧
        operationTTL < s.time - q.2.updatedAt))) k
  have hkeep : ∀ k op, findOp (cleanupOldOperations s).operations k = some op →
      findOp s.operations k = some op := by
    intro k op h
    rw [show (cleanupOldOperations s).operations =
        s.operations.filter (fun q => !(decide ((q.2.status = .completed ∨
          q.2.status = .failed) ∧ operationTTL < s.time - q.2.updatedAt))) from rfl,
      hfil k] at h
    cases hfind : findOp s.operations k with
    | none => rw [hfind] at h; exact Option.noConfusion h
    | some v =>
        rw [hfind] at h
        rcases ite_eq_iff.mp h with ⟨hc, h2⟩ | ⟨hc, h2⟩
        · exact h2
        · exact Option.noConfusion h2
  have hkeepnon : ∀ k op, findOp s.operations k = some op →
      op.status ≠ .completed → op.status ≠ .failed →
      findOp (cleanupOldOperations s).operations k = some op := by
    intro k op h h1 h2
    rw [show (cleanupOldOperations s).operations =
        s.operations.filter (fun q => !(decide ((q.2.status = .completed ∨
          q.2.status = .failed) ∧ operationTTL < s.time - q.2.updatedAt))) from rfl,
      hfil k, h]
    simp [h1, h2]
  refine
    { keysNodup := inv.keysNodup.sublist
        (List.Sublist.map Prod.fst (List.filter_sublist s.operations))
      idMatch := fun k op hop => inv.idMatch k op (hkeep k op hop)
      keysLt := fun k op hop => inv.keysLt k op (hkeep k op hop)
      queueKeys := ?_
      queuedIff := fun k op hop => inv.queuedIff k op (hkeep k op hop)
      procCur := fun k op hop => inv.procCur k op (hkeep k op hop)
      curMem := ?_
      histSorted := inv.histSorted
      startedLt := inv.startedLt
      resultIff := fun k op hop => inv.resultIff k op (hkeep k op hop)
      errorIff := fun k op hop => inv.errorIff k op (hkeep k op hop)
      updLe := fun k op hop => inv.updLe k op (hkeep k op hop)
      dpcIdle := inv.dpcIdle
      dpcInit := inv.dpcInit
      curExec := inv.curExec
      dpcExec := inv.dpcExec }
  · intro k hmem
    obtain ⟨op, hop⟩ := Option.isSome_iff_exists.mp (inv.queueKeys k hmem)
    have hql := (inv.queuedIff k op hop).mpr hmem
    rw [hkeepnon k op hop (by rw [hql]; intro h; cases h) (by rw [hql]; intro h; cases h)]
    rfl
  · intro k hk
    obtain ⟨op, hop, hproc⟩ := inv.curMem k hk
    exact ⟨op, hkeepnon k op hop (by rw [hproc]; intro h; cases h)
      (by rw [hproc]; intro h; cases h), hproc⟩

theorem inv_tick {s : QState} (inv : Inv s) (dt : Nat) :
    Inv { s with time := s.time + dt } :=
  { keysNodup := inv.keysNodup
    idMatch := inv.idMatch
    keysLt := inv.keysLt
    queueKeys := inv.queueKeys
    queuedIff := inv.queuedIff
    procCur := inv.procCur
    curMem := inv.curMem
    histSorted := inv.histSorted
    startedLt := inv.startedLt
    resultIff := inv.resultIff
    errorIff := inv.errorIff
    updLe := fun k op hop => Nat.le_trans (inv.updLe k op hop) (Nat.le_add_right _ _)
    dpcIdle := inv.dpcIdle
    dpcInit := inv.dpcInit
    curExec := inv.curExec
    dpcExec := inv.dpcExec }

theorem inv_init : Inv initState :=
  { keysNodup := List.nodup_nil
    idMatch := fun _ _ h => Option.noConfusion h
    keysLt := fun _ _ h => Option.noConfusion h
    queueKeys := by intro id h; cases h
    queuedIff := fun _ _ h => Option.noConfusion h
    procCur := fun _ _ h => Option.noConfusion h
    curMem := fun _ h => Option.noConfusion h
    histSorted := List.Pairwise.nil
    startedLt := by intro id h; cases h
    resultIff := fun _ _ h => Option.noConfusion h
    errorIff := fun _ _ h => Option.noConfusion h
    updLe := fun _ _ h => Option.noConfusion h
    dpcIdle := by simp [initState]
    dpcInit := by simp [initState]
    curExec := fun _ h => Option.noConfusion h
    dpcExec := by simp [initState] }

/-- Every atomic transition preserves the invariant. -/
theorem inv_stepA {s : QState} (inv : Inv s) (a : Act) : Inv (stepA s a) := by
  cases a with
  | enq input => exact inv_enqueue inv input
  | cancelA id => exact inv_cancel inv id
  | resumeInitA ready =>
      cases hd : s.dpc with
      | awaitingInit =>
          cases ready with
          | true => simpa [stepA, hd] using inv_resumeInit_true inv hd
          | false => simpa [stepA, hd] using inv_serviceFail inv hd
      | idle => simpa [stepA, hd] using inv
      | awaitingExec id => simpa [stepA, hd] using inv
  | resumeExecA o =>
      cases hd : s.dpc with
      | awaitingExec id => simpa [stepA, hd] using inv_resumeExec inv hd o
      | idle => simpa [stepA, hd] using inv
      | awaitingInit => simpa [stepA, hd] using inv
  | progressA p =>
      cases hd : s.dpc with
      | awaitingExec id => simpa [stepA, hd] using inv_progressUpd inv id p
      | idle => simpa [stepA, hd] using inv
      | awaitingInit => simpa [stepA, hd] using inv
  | lateProgressA id p =>
      by_cases hmem : id ∈ s.orphans
      · simpa [stepA, hmem] using inv_progressUpd inv id p
      · simpa [stepA, hmem] using inv
  | lateResolveA id v => simpa [stepA] using inv
  | sweep => exact inv_sweep inv
  | tick dt => exact inv_tick inv dt

theorem reachableFrom_inv {s s' : QState} (h : ReachableFrom s s') (inv : Inv s) :
    Inv s' := by
  induction h with
  | refl => exact inv
  | tail h1 h2 ih =>
      obtain ⟨a, ha⟩ := h2
      rw [← ha]
      exact inv_stepA ih a

/-- Every reachable state satisfies the invariant. -/
theorem reachable_inv {s : QState} (h : Reachable s) : Inv s :=
  reachableFrom_inv h inv_init


/-! ### Effect lemmas used by the claim theorems -/

theorem drainGo_keys (s : QState) (q : List Nat) :
    (drainGo s q).operations.map Prod.fst = s.operations.map Prod.fst := by
  induction q with
  | nil => rfl
  | cons id rest ih =>
      by_cases hr : s.serviceReady
      · cases hfind : findOp s.operations id with
        | none => simpa [drainGo, hr, hfind] using ih
        | some op => simp [drainGo, hr, hfind, updOp_keys]
      · simp [drainGo, hr]

theorem drainGo_nextId (s : QState) (q : List Nat) :
    (drainGo s q).nextId = s.nextId := by
  induction q with
  | nil => rfl
  | cons id rest ih =>
      by_cases hr : s.serviceReady
      · cases hfind : findOp s.operations id with
        | none => simpa [drainGo, hr, hfind] using ih
        | some op => simp [drainGo, hr, hfind]
      · simp [drainGo, hr]

theorem drainGo_time (s : QState) (q : List Nat) :
    (drainGo s q).time = s.time := by
  induction q with
  | nil => rfl
  | cons id rest ih =>
      by_cases hr : s.serviceReady
      · cases hfind : findOp s.operations id with
        | none => simpa [drainGo, hr, hfind] using ih
        | some op => simp [drainGo, hr, hfind]
      · simp [drainGo, hr]

/-- When every pending id has a record, one drain continuation consumes at
most one entry of the pending list. -/
theorem drainGo_queueLen (s : QState) (q : List Nat)
    (hq : ∀ id ∈ q, (findOp s.operations id).isSome) :
    q.length ≤ (drainGo s q).queue.length + 1 := by
  cases q with
  | nil => simp
  | cons id rest =>
      by_cases hr : s.serviceReady
      · cases hfind : findOp s.operations id with
        | none =>
            have h1 := hq id (List.mem_cons_self id rest)
            rw [hfind] at h1
            cases h1
        | some op => simp [drainGo, hr, hfind]
      · simp [drainGo, hr]

/-- One drain continuation changes record statuses in exactly one way: it may
promote one `Queued` record (the shifted head) to `Processing`. -/
theorem drainGo_status (s : QState) (q : List Nat)
    (hq : ∀ id ∈ q, ∀ op, findOp s.operations id = some op → op.status = .queued)
    (k : Nat) :
    findOp (drainGo s q).operations k = findOp s.operations k ∨
    ∃ op, findOp s.operations k = some op ∧ op.status = .queued ∧
      findOp (drainGo s q).operations k =
        some { op with status := .processing, updatedAt := s.time } := by
  induction q with
  | nil => left; rfl
  | cons id rest ih =>
      by_cases hr : s.serviceReady
      · cases hfind : findOp s.operations id with
        | none =>
            simpa [drainGo, hr, hfind] using
              ih (fun i hi => hq i (List.mem_cons_of_mem id hi))
        | some op =>
            simp only [drainGo, hr, if_true, hfind]
            by_cases hk : k = id
            · subst hk
              right
              refine ⟨op, hfind, hq k (List.mem_cons_self k rest) op hfind, ?_⟩
              rw [findOp_updOp, if_pos rfl, hfind]
              rfl
            · left
              rw [findOp_updOp, if_neg hk]
      · simp [drainGo, hr]

/-- `drainLoop` phrasing of `drainGo_status`. -/
theorem drainLoop_status (s : QState)
    (hq : ∀ id ∈ s.queue, ∀ op, findOp s.operations id = some op → op.status = .queued)
    (k : Nat) :
    findOp (drainLoop s).operations k = findOp s.operations k ∨
    ∃ op, findOp s.operations k = some op ∧ op.status = .queued ∧
      findOp (drainLoop s).operations k =
        some { op with status := .processing, updatedAt := s.time } :=
  drainGo_status s s.queue hq k

theorem stepA_nextId_mono (s : QState) (a : Act) : s.nextId ≤ (stepA s a).nextId := by
  cases a with
  | enq input =>
      by_cases hcap :
          maxQueueSize ≤ s.queue.length + (if s.currentOperation.isSome then 1 else 0)
      · simp [stepA, enqueue, hcap]
      · simp only [stepA, enqueue, hcap, if_false]
        by_cases hp : s.isProcessing <;>
          simp [processQueue, hp, drainLoop, drainGo_nextId, Nat.le_succ]
  | cancelA id =>
      cases hfind : findOp s.operations id with
      | none => simp [stepA, cancel, hfind]
      | some op =>
          by_cases hst : op.status = .queued <;> simp [stepA, cancel, hfind, hst]
  | resumeInitA ready =>
      cases hd : s.dpc with
      | awaitingInit =>
          cases ready with
          | true => simp [stepA, hd, drainLoop, drainGo_nextId]
          | false => simp [stepA, hd, serviceFailSweep]
      | idle => simp [stepA, hd]
      | awaitingExec id => simp [stepA, hd]
  | resumeExecA o =>
      cases hd : s.dpc with
      | awaitingExec id => simp [stepA, hd, drainLoop, drainGo_nextId]
      | idle => simp [stepA, hd]
      | awaitingInit => simp [stepA, hd]
  | progressA p =>
      cases hd : s.dpc with
      | awaitingExec id => simp [stepA, hd]
      | idle => simp [stepA, hd]
      | awaitingInit => simp [stepA, hd]
  | lateProgressA id p =>
      by_cases hmem : id ∈ s.orphans <;> simp [stepA, hmem]
  | lateResolveA id v => simp [stepA]
  | sweep => simp [stepA, cleanupOldOperations]
  | tick dt => simp [stepA]

theorem reachableFrom_nextId_mono {s s' : QState} (h : ReachableFrom s s') :
    s.nextId ≤ s'.nextId := by
  induction h with
  | refl => exact Nat.le_refl _
  | tail hab hbc ih =>
      obtain ⟨a, ha⟩ := hbc
      rw [← ha]
      exact Nat.le_trans ih (stepA_nextId_mono _ a)

/-! ### Counting lemmas -/

theorem length_filter_or (l : List (Nat × Operation)) (p q : Nat × Operation → Bool)
    (h : ∀ a ∈ l, ¬(p a = true ∧ q a = true)) :
    (l.filter (fun a => p a || q a)).length =
      (l.filter p).length + (l.filter q).length := by
  induction l with
  | nil => rfl
  | cons a t ih =>
      have ht := ih (fun x hx => h x (List.mem_cons_of_mem a hx))
      have ha := h a (List.mem_cons_self a t)
      cases hpa : p a with
      | true =>
          cases hqa : q a with
          | true => exact absurd ⟨hpa, hqa⟩ ha
          | false =>
              simp [List.filter_cons, hpa, hqa, ht]
              omega
      | false =>
          cases hqa : q a with
          | true =>
              simp [List.filter_cons, hpa, hqa, ht]
              omega
          | false => simp [List.filter_cons, hpa, hqa, ht]

theorem count_queued {s : QState} (inv : Inv s) :
    (s.operations.filter (fun q => decide (q.2.status = .queued))).length =
      s.queue.length := by
  have hsub : List.Sublist
      ((s.operations.filter (fun q => decide (q.2.status = .queued))).map Prod.fst)
      (s.operations.map Prod.fst) :=
    List.Sublist.map Prod.fst (List.filter_sublist s.operations)
  have h1 : ((s.operations.filter (fun q => decide (q.2.status = .queued))).map
      Prod.fst).Nodup := inv.keysNodup.sublist hsub
  have h2 : s.queue.Nodup := queue_nodup inv.histSorted
  have h3 : ∀ a,
      a ∈ (s.operations.filter (fun q => decide (q.2.status = .queued))).map Prod.fst ↔
        a ∈ s.queue := by
    intro a
    constructor
    · intro ha
      obtain ⟨⟨k, op⟩, hmem, hfst⟩ := List.mem_map.mp ha
      obtain ⟨hmem2, hql⟩ := List.mem_filter.mp hmem
      cases hfst
      have hop := findOp_eq_some_of_mem inv.keysNodup hmem2
      exact (inv.queuedIff _ op hop).mp (by simpa using hql)
    · intro ha
      obtain ⟨op, hop⟩ := Option.isSome_iff_exists.mp (inv.queueKeys a ha)
      have hql := (inv.queuedIff a op hop).mpr ha
      exact List.mem_map.mpr ⟨(a, op),
        List.mem_filter.mpr ⟨findOp_mem hop, by simpa using hql⟩, rfl⟩
  have hperm := (List.perm_ext_iff_of_nodup h1 h2).mpr h3
  calc (s.operations.filter (fun q => decide (q.2.status = .queued))).length
      = ((s.operations.filter (fun q => decide (q.2.status = .queued))).map
          Prod.fst).length := (List.length_map _ _).symm
    _ = s.queue.length := hperm.length_eq

theorem count_processing {s : QState} (inv : Inv s) :
    (s.operations.filter (fun q => decide (q.2.status = .processing))).length =
      if s.currentOperation.isSome then 1 else 0 := by
  cases hc : s.currentOperation with
  | none =>
      have h1 : s.operations.filter (fun q => decide (q.2.status = .processing)) = [] := by
        rw [List.filter_eq_nil_iff]
        intro ⟨k, op⟩ hmem
        simp only [decide_eq_true_eq]
        intro hp
        have hop := findOp_eq_some_of_mem inv.keysNodup hmem
        have h2 := inv.procCur k op hop hp
        rw [hc] at h2
        cases h2
      simp [h1]
  | some c =>
      obtain ⟨opc, hopc, hpc⟩ := inv.curMem c hc
      have h1 : s.operations.filter (fun q => decide (q.2.status = .processing)) =
          [(c, opc)] → (s.operations.filter
            (fun q => decide (q.2.status = .processing))).length = 1 := by
        intro h
        rw [h]
        rfl
      have hsub : List.Sublist
          ((s.operations.filter (fun q => decide (q.2.status = .processing))).map Prod.fst)
          (s.operations.map Prod.fst) :=
        List.Sublist.map Prod.fst (List.filter_sublist s.operations)
      have hnd : ((s.operations.filter
          (fun q => decide (q.2.status = .processing))).map Prod.fst).Nodup :=
        inv.keysNodup.sublist hsub
      have hmemiff : ∀ a,
          a ∈ (s.operations.filter (fun q => decide (q.2.status = .processing))).map
            Prod.fst ↔ a ∈ [c] := by
        intro a
        constructor
        · intro ha
          obtain ⟨⟨k, op⟩, hmem, hfst⟩ := List.mem_map.mp ha
          obtain ⟨hmem2, hpl⟩ := List.mem_filter.mp hmem
          cases hfst
          have hop := findOp_eq_some_of_mem inv.keysNodup hmem2
          have h2 := inv.procCur _ op hop (by simpa using hpl)
          rw [hc] at h2
          simp only [Option.some.injEq] at h2
          simp [h2]
        · intro ha
          simp only [List.mem_singleton] at ha
          subst ha
          exact List.mem_map.mpr ⟨(a, opc),
            List.mem_filter.mpr ⟨findOp_mem hopc, by simpa using hpc⟩, rfl⟩
      have hperm := (List.perm_ext_iff_of_nodup hnd (by simp)).mpr hmemiff
      have hlen := hperm.length_eq
      rw [List.length_map] at hlen
      simp [hlen]

/-- The permitted one-step status moves: stay put, or follow one edge of
`Queued → Processing → (Completed | Failed)` or `Queued → Failed`. -/
def statusStepOk (a b : OperationStatus) : Prop :=
  a = b ∨ (a = .queued ∧ b = .processing) ∨ (a = .queued ∧ b = .failed) ∨
    (a = .processing ∧ b = .completed) ∨ (a = .processing ∧ b = .failed)

theorem findOp_eq_none_iff {m : List (Nat × Operation)} {k : Nat} :
    findOp m k = none ↔ k ∉ m.map Prod.fst := by
  constructor
  · intro h hmem
    have h1 := findOp_isSome_of_mem_keys hmem
    rw [h] at h1
    cases h1
  · intro h
    cases hfind : findOp m k with
    | none => rfl
    | some v => exact absurd (mem_keys_of_findOp hfind) h

/-- `processQueue` either leaves a record alone or promotes one `Queued`
record to `Processing`. -/
theorem processQueue_status {s1 : QState}
    (hq : ∀ id ∈ s1.queue, ∀ opx, findOp s1.operations id = some opx →
      opx.status = .queued)
    {k : Nat} {op op' : Operation} (hop : findOp s1.operations k = some op)
    (hop' : findOp (processQueue s1).operations k = some op') :
    op' = op ∨ (op.status = .queued ∧
      op' = { op with status := .processing, updatedAt := s1.time }) := by
  unfold processQueue at hop'
  by_cases hp : s1.isProcessing
  · rw [if_pos hp, hop] at hop'
    simp only [Option.some.injEq] at hop'
    left
    exact hop'.symm
  · rw [if_neg hp] at hop'
    rcases drainLoop_status { s1 with isProcessing := true } hq k with h | ⟨opx, hx1, hx2, hx3⟩
    · rw [h] at hop'
      have hop2 : findOp s1.operations k = some op' := hop'
      rw [hop] at hop2
      simp only [Option.some.injEq] at hop2
      left
      exact hop2.symm
    · have hx1' : findOp s1.operations k = some opx := hx1
      rw [hop] at hx1'
      simp only [Option.some.injEq] at hx1'
      subst hx1'
      rw [hx3] at hop'
      simp only [Option.some.injEq] at hop'
      right
      exact ⟨hx2, hop'.symm⟩

/-- Master per-step status lemma: every atomic transition moves every
surviving record's status along a permitted edge (or leaves it alone). -/
theorem stepA_status {s : QState} (inv : Inv s) (a : Act) {k : Nat} {op op' : Operation}
    (hop : findOp s.operations k = some op)
    (hop' : findOp (stepA s a).operations k = some op') :
    statusStepOk op.status op'.status := by
  have same : findOp s.operations k = some op' → statusStepOk op.status op'.status := by
    intro h2
    rw [hop] at h2
    simp only [Option.some.injEq] at h2
    left
    rw [h2]
  cases a with
  | enq input =>
      by_cases hcap :
          maxQueueSize ≤ s.queue.length + (if s.currentOperation.isSome then 1 else 0)
      · rw [stepA_enq_full hcap] at hop'
        exact same hop'
      · rw [stepA_enq_ok hcap] at hop'
        have inv1 := inv_insert inv
          { id := s.nextId, status := .queued, input := input, createdAt := s.time,
            updatedAt := s.time, position := s.queue.length + 1, result := none,
            error := none, progress := none } rfl rfl rfl rfl (Nat.le_refl _)
        have hklt : k < s.nextId := inv.keysLt k op hop
        have hop1 : findOp (s.operations ++
            [(s.nextId,
              { id := s.nextId, status := .queued, input := input, createdAt := s.time,
                updatedAt := s.time, position := s.queue.length + 1, result := none,
                error := none, progress := none })]) k = some op := by
          rw [findOp_append_fresh (findOp_fresh inv (Nat.le_refl _)) k,
            if_neg (Nat.ne_of_lt hklt)]
          exact hop
        have hq := fun id hid opx hopx => (inv1.queuedIff id opx hopx).mpr hid
        rcases processQueue_status hq hop1 hop' with h | h
        · left; rw [h]
        · right; left
          exact ⟨h.1, by rw [h.2]⟩
  | cancelA id =>
      rw [stepA_cancel_eq] at hop'
      cases hfind : findOp s.operations id with
      | none =>
          rw [cancel_none_eq hfind] at hop'
          exact same hop'
      | some opc =>
          by_cases hst : opc.status = .queued
          · rw [cancel_ok_eq hfind hst] at hop'
            have hop2 : findOp (updOp s.operations id
                (fun o =>
                  { o with
                      status := .failed
                      error := some "Cancelled by user"
                      updatedAt := s.time })) k = some op' := hop'
            rw [findOp_updOp] at hop2
            by_cases hk : k = id
            · subst hk
              rw [if_pos rfl, hfind] at hop2
              simp only [Option.map_some', Option.some.injEq] at hop2
              have hoc : opc = op := by
                rw [hfind] at hop
                simp only [Option.some.injEq] at hop
                exact hop
              subst hoc
              right; right; left
              rw [← hop2]
              exact ⟨hst, rfl⟩
            · rw [if_neg hk] at hop2
              exact same hop2
          · rw [cancel_invalid_eq hfind hst] at hop'
            exact same hop'
  | resumeInitA ready =>
      by_cases hd : s.dpc = .awaitingInit
      · cases ready with
        | true =>
            rw [stepA_resumeInit_true hd] at hop'
            have hq : ∀ id ∈ s.queue, ∀ opx, findOp s.operations id = some opx →
                opx.status = .queued :=
              fun id hid opx hopx => (inv.queuedIff id opx hopx).mpr hid
            rcases drainLoop_status { s with serviceReady := true } hq k with
              h | ⟨opx, hx1, hx2, hx3⟩
            · rw [h] at hop'
              exact same hop'
            · have hx1' : findOp s.operations k = some opx := hx1
              rw [hop] at hx1'
              simp only [Option.some.injEq] at hx1'
              subst hx1'
              rw [hx3] at hop'
              simp only [Option.some.injEq] at hop'
              right; left
              rw [← hop']
              exact ⟨hx2, rfl⟩
        | false =>
            rw [stepA_resumeInit_false hd] at hop'
            have hop2 : findOp (s.queue.foldl
                (fun m id => updOp m id (failQueuedOp s.time)) s.operations) k =
                some op' := hop'
            rw [findOp_foldl_updOp (failQueuedOp s.time) (failQueuedOp_idem s.time)
              s.queue s.operations k] at hop2
            by_cases hk : k ∈ s.queue
            · rw [if_pos hk, hop] at hop2
              simp only [Option.map_some', Option.some.injEq] at hop2
              have hql := (inv.queuedIff k op hop).mpr hk
              right; right; left
              rw [← hop2]
              exact ⟨hql, rfl⟩
            · rw [if_neg hk] at hop2
              exact same hop2
      · rw [stepA_resumeInit_skip hd] at hop'
        exact same hop'
  | resumeExecA o =>
      cases hdd : s.dpc with
      | awaitingExec id =>
          rw [stepA_resumeExec_eq hdd o] at hop'
          have hcur : s.currentOperation = some id := inv.dpcExec id hdd
          obtain ⟨opc, hopc, hproc⟩ := inv.curMem id hcur
          have hidq : id ∉ s.queue := by
            intro hmem
            have h1 := (inv.queuedIff id opc hopc).mpr hmem
            rw [hproc] at h1
            cases h1
          have hq2 : ∀ i ∈ s.queue, ∀ opx,
              findOp (updOp s.operations id (finishOp o s.time)) i = some opx →
              opx.status = .queued := by
            intro i hi opx hopx
            rw [findOp_updOp, if_neg (by rintro rfl; exact hidq hi)] at hopx
            exact (inv.queuedIff i opx hopx).mpr hi
          rcases drainLoop_status (execFinish s id o) hq2 k with h | ⟨opx, hx1, hx2, hx3⟩
          · rw [h] at hop'
            have hop2 : findOp (updOp s.operations id (finishOp o s.time)) k =
                some op' := hop'
            rw [findOp_updOp] at hop2
            by_cases hk : k = id
            · subst hk
              rw [if_pos rfl, hopc] at hop2
              simp only [Option.map_some', Option.some.injEq] at hop2
              have hoc : opc = op := by
                rw [hopc] at hop
                simp only [Option.some.injEq] at hop
                exact hop
              subst hoc
              rw [← hop2]
              cases o with
              | success v => right; right; right; left; exact ⟨hproc, rfl⟩
              | failure e => right; right; right; right; exact ⟨hproc, rfl⟩
              | timeout => right; right; right; right; exact ⟨hproc, rfl⟩
            · rw [if_neg hk] at hop2
              exact same hop2
          · have hx1' : findOp (updOp s.operations id (finishOp o s.time)) k =
                some opx := hx1
            rw [findOp_updOp] at hx1'
            by_cases hk : k = id
            · subst hk
              rw [if_pos rfl, hopc] at hx1'
              simp only [Option.map_some', Option.some.injEq] at hx1'
              have h2 : opx.status ≠ .queued := by
                rw [← hx1']
                exact finishOp_not_queued o s.time opc
              exact absurd hx2 h2
            · rw [if_neg hk, hop] at hx1'
              simp only [Option.some.injEq] at hx1'
              subst hx1'
              rw [hx3] at hop'
              simp only [Option.some.injEq] at hop'
              right; left
              rw [← hop']
              exact ⟨hx2, rfl⟩
      | idle =>
          rw [stepA_resumeExec_skip (by rw [hdd]; intro i h; cases h)] at hop'
          exact same hop'
      | awaitingInit =>
          rw [stepA_resumeExec_skip (by rw [hdd]; intro i h; cases h)] at hop'
          exact same hop'
  | progressA p =>
      cases hdd : s.dpc with
      | awaitingExec id =>
          rw [stepA_progress_eq hdd] at hop'
          have hop2 : findOp (updOp s.operations id
              (fun op => { op with progress := some p, updatedAt := s.time })) k =
              some op' := hop'
          rw [findOp_updOp] at hop2
          by_cases hk : k = id
          · subst hk
            rw [if_pos rfl, hop] at hop2
            simp only [Option.map_some', Option.some.injEq] at hop2
            left
            rw [← hop2]
          · rw [if_neg hk] at hop2
            exact same hop2
      | idle =>
          rw [stepA_progress_skip (by rw [hdd]; intro i h; cases h)] at hop'
          exact same hop'
      | awaitingInit =>
          rw [stepA_progress_skip (by rw [hdd]; intro i h; cases h)] at hop'
          exact same hop'
  | lateProgressA id p =>
      by_cases hmem : id ∈ s.orphans
      · rw [stepA_lateProgress_mem hmem] at hop'
        have hop2 : findOp (updOp s.operations id
            (fun op => { op with progress := some p, updatedAt := s.time })) k =
            some op' := hop'
        rw [findOp_updOp] at hop2
        by_cases hk : k = id
        · subst hk
          rw [if_pos rfl, hop] at hop2
          simp only [Option.map_some', Option.some.injEq] at hop2
          left
          rw [← hop2]
        · rw [if_neg hk] at hop2
          exact same hop2
      · rw [stepA_lateProgress_skip hmem] at hop'
        exact same hop'
  | lateResolveA id v =>
      rw [stepA_lateResolve_eq] at hop'
      exact same hop'
  | sweep =>
      rw [stepA_sweep_eq] at hop'
      have hop2 : findOp (s.operations.filter (fun q => !(decide ((q.2.status = .completed ∨
          q.2.status = .failed) ∧ operationTTL < s.time - q.2.updatedAt)))) k =
          some op' := hop'
      rw [findOp_filter inv.keysNodup _ k, hop] at hop2
      rcases ite_eq_iff.mp hop2 with ⟨_, h2⟩ | ⟨_, h2⟩
      · simp only [Option.some.injEq] at h2
        left; rw [h2]
      · exact Option.noConfusion h2
  | tick dt =>
      rw [stepA_tick_eq] at hop'
      exact same hop'

/-- A key that is absent and below the id counter never reappears. -/
theorem stepA_findOp_none {s : QState} (inv : Inv s) (a : Act) {k : Nat}
    (hn : findOp s.operations k = none) (hlt : k < s.nextId) :
    findOp (stepA s a).operations k = none := by
  have hkeys : k ∉ s.operations.map Prod.fst := findOp_eq_none_iff.mp hn
  cases a with
  | enq input =>
      by_cases hcap :
          maxQueueSize ≤ s.queue.length + (if s.currentOperation.isSome then 1 else 0)
      · rw [stepA_enq_full hcap]
        exact hn
      · rw [stepA_enq_ok hcap, findOp_eq_none_iff]
        unfold processQueue
        have hnew : k ∉ (s.operations ++
            [(s.nextId,
              ({ id := s.nextId, status := .queued, input := input, createdAt := s.time,
                 updatedAt := s.time, position := s.queue.length + 1, result := none,
                 error := none, progress := none } : Operation))]).map Prod.fst := by
          intro hmem
          simp only [List.map_append, List.map_cons, List.map_nil,
            List.mem_append, List.mem_singleton] at hmem
          rcases hmem with h1 | h1
          · exact hkeys h1
          · exact absurd h1 (Nat.ne_of_lt hlt)
        split
        · exact hnew
        · rw [drainLoop, drainGo_keys]
          exact hnew
  | cancelA id =>
      rw [stepA_cancel_eq]
      cases hfind : findOp s.operations id with
      | none =>
          rw [cancel_none_eq hfind]
          exact hn
      | some opc =>
          by_cases hst : opc.status = .queued
          · rw [cancel_ok_eq hfind hst]
            have h1 : k ∉ (updOp s.operations id
                (fun o =>
                  { o with
                      status := .failed
                      error := some "Cancelled by user"
                      updatedAt := s.time })).map Prod.fst := by
              rw [updOp_keys]
              exact hkeys
            exact findOp_eq_none_iff.mpr h1
          · rw [cancel_invalid_eq hfind hst]
            exact hn
  | resumeInitA ready =>
      by_cases hd : s.dpc = .awaitingInit
      · cases ready with
        | true =>
            rw [stepA_resumeInit_true hd, drainLoop, findOp_eq_none_iff, drainGo_keys]
            exact hkeys
        | false =>
            rw [stepA_resumeInit_false hd]
            have h1 : k ∉ (s.queue.foldl
                (fun m id => updOp m id (failQueuedOp s.time)) s.operations).map
                Prod.fst := by
              rw [foldl_updOp_keys]
              exact hkeys
            exact findOp_eq_none_iff.mpr h1
      · rw [stepA_resumeInit_skip hd]
        exact hn
  | resumeExecA o =>
      cases hdd : s.dpc with
      | awaitingExec id =>
          rw [stepA_resumeExec_eq hdd o, drainLoop, findOp_eq_none_iff, drainGo_keys]
          show k ∉ (updOp s.operations id (finishOp o s.time)).map Prod.fst
          rw [updOp_keys]
          exact hkeys
      | idle =>
          rw [stepA_resumeExec_skip (by rw [hdd]; intro i h; cases h)]
          exact hn
      | awaitingInit =>
          rw [stepA_resumeExec_skip (by rw [hdd]; intro i h; cases h)]
          exact hn
  | progressA p =>
      cases hdd : s.dpc with
      | awaitingExec id =>
          rw [stepA_progress_eq hdd]
          have h1 : k ∉ (updOp s.operations id
              (fun op => { op with progress := some p, updatedAt := s.time })).map
              Prod.fst := by
            rw [updOp_keys]
            exact hkeys
          exact findOp_eq_none_iff.mpr h1
      | idle =>
          rw [stepA_progress_skip (by rw [hdd]; intro i h; cases h)]
          exact hn
      | awaitingInit =>
          rw [stepA_progress_skip (by rw [hdd]; intro i h; cases h)]
          exact hn
  | lateProgressA id p =>
      by_cases hmem : id ∈ s.orphans
      · rw [stepA_lateProgress_mem hmem]
        have h1 : k ∉ (updOp s.operations id
            (fun op => { op with progress := some p, updatedAt := s.time })).map
            Prod.fst := by
          rw [updOp_keys]
          exact hkeys
        exact findOp_eq_none_iff.mpr h1
      · rw [stepA_lateProgress_skip hmem]
        exact hn
  | lateResolveA id v =>
      rw [stepA_lateResolve_eq]
      exact hn
  | sweep =>
      rw [stepA_sweep_eq]
      have h2 : findOp (s.operations.filter (fun q => !(decide ((q.2.status = .completed ∨
          q.2.status = .failed) ∧ operationTTL < s.time - q.2.updatedAt)))) k =
          none := by
        rw [findOp_filter inv.keysNodup _ k, hn]
      exact h2
  | tick dt =>
      rw [stepA_tick_eq]
      exact hn

theorem posInQueue_spec {l : List Nat} {x : Nat} (h : x ∈ l) :
    ∃ i, posInQueue l x = i + 1 ∧ l[i]? = some x := by
  induction l with
  | nil => simp at h
  | cons a t ih =>
      by_cases ha : a = x
      · exact ⟨0, by simp [posInQueue, ha], by simp [ha]⟩
      · have hx : x ∈ t := by
          rcases List.mem_cons.mp h with h1 | h1
          · exact absurd h1.symm ha
          · exact h1
        obtain ⟨i, hp, hg⟩ := ih hx
        exact ⟨i + 1, by simp [posInQueue, ha, hp], by simpa using hg⟩

/-! ### Enqueue and drain-continuation equations -/

/-- The store/queue insertion performed by a successful `enqueue`
(lines 81–97), before `processQueue` is triggered. -/
def enqInsert (s : QState) (input : Nat) : QState :=
  { s with
      operations := s.operations ++
        [(s.nextId,
          { id := s.nextId, status := .queued, input := input, createdAt := s.time,
            updatedAt := s.time, position := s.queue.length + 1, result := none,
            error := none, progress := none })]
      queue := s.queue ++ [s.nextId]
      nextId := s.nextId + 1 }

theorem enqueue_full_eq {s : QState} {input : Nat}
    (hcap : maxQueueSize ≤ s.queue.length + (if s.currentOperation.isSome then 1 else 0)) :
    enqueue s input =
      (Except.error "Queue is full. Maximum 10 pending operations allowed.", s) := by
  simp [enqueue, hcap]

theorem enqueue_ok_eq {s : QState} {input : Nat}
    (hcap : ¬maxQueueSize ≤ s.queue.length + (if s.currentOperation.isSome then 1 else 0)) :
    enqueue s input =
      (Except.ok
        { operationId := s.nextId
          status :=
            match findOp (processQueue (enqInsert s input)).operations s.nextId with
            | some o => o.status
            | none => OperationStatus.queued
          position := s.queue.length + 1
          queueLength := (processQueue (enqInsert s input)).queue.length },
       processQueue (enqInsert s input)) := by
  simp [enqueue, enqInsert, hcap]

theorem processQueue_nextId (s : QState) : (processQueue s).nextId = s.nextId := by
  unfold processQueue
  split
  · rfl
  · rw [drainLoop, drainGo_nextId]

theorem processQueue_keys (s : QState) :
    (processQueue s).operations.map Prod.fst = s.operations.map Prod.fst := by
  unfold processQueue
  split
  · rfl
  · rw [drainLoop, drainGo_keys]

theorem processQueue_queueLen {s : QState}
    (hq : ∀ id ∈ s.queue, (findOp s.operations id).isSome) :
    s.queue.length ≤ (processQueue s).queue.length + 1 := by
  unfold processQueue
  split
  · exact Nat.le_succ_of_le (Nat.le_refl _)
  · rw [drainLoop]
    exact drainGo_queueLen _ _ hq

theorem drainLoop_empty (s : QState) (hq : s.queue = []) :
    drainLoop s = { s with queue := [], isProcessing := false, dpc := .idle } := by
  unfold drainLoop
  rw [hq]
  rfl

theorem drainLoop_cons (s : QState) {j : Nat} {rest : List Nat} (hq : s.queue = j :: rest)
    (hr : s.serviceReady = true) {opj : Operation}
    (hopj : findOp s.operations j = some opj) :
    drainLoop s =
      { s with
          queue := rest
          operations := updOp s.operations j
            (fun op => { op with status := .processing, updatedAt := s.time })
          currentOperation := some j
          started := s.started ++ [j]
          dpc := .awaitingExec j } := by
  unfold drainLoop
  rw [hq]
  simp [drainGo, hr, hopj]

/-! ### Claim theorems -/

/-- C1: in every reachable state of the queue (under any sequence of enqueue,
drain-loop steps, cancel, and reaper sweeps), at most one record in the
operation store has status `Processing`. -/
theorem c1_at_most_one_processing {s : QState} (h : Reachable s) :
    (s.operations.filter (fun q => decide (q.2.status = .processing))).length ≤ 1 := by
  have inv := reachable_inv h
  rw [count_processing inv]
  by_cases hc : s.currentOperation.isSome <;> simp [hc]

theorem c1_witness :
    ((stepA (stepA initState (.enq 0)) (.resumeInitA true)).operations.filter
      (fun q => decide (q.2.status = .processing))).length ≤ 1 :=
  c1_at_most_one_processing ((Reachable.start.step (.enq 0)).step (.resumeInitA true))

/-- C2: along every atomic transition of the system, a surviving record's
status either stays put or follows one edge of the permitted paths
`Queued → Processing → Completed`, `Queued → Processing → Failed`,
`Queued → Failed`; no transition returns to `Queued` or leaves a terminal
state.  (The `Queued → Failed` edge is taken by cancellation and by the
readiness-failure sweep.) -/
theorem c2_status_monotone {s : QState} (h : Reachable s) (a : Act) (k : Nat)
    (op op' : Operation) (hop : findOp s.operations k = some op)
    (hop' : findOp (stepA s a).operations k = some op') :
    statusStepOk op.status op'.status :=
  stepA_status (reachable_inv h) a hop hop'

theorem c2_witness : statusStepOk OperationStatus.queued OperationStatus.processing := by
  have h := c2_status_monotone (Reachable.start.step (.enq 7)) (.resumeInitA true) 0
    { id := 0, status := .queued, input := 7, createdAt := 0, updatedAt := 0,
      position := 1, result := none, error := none, progress := none }
    { id := 0, status := .processing, input := 7, createdAt := 0, updatedAt := 0,
      position := 1, result := none, error := none, progress := none }
    (by decide) (by decide)
  exact h

/-- C3: the ids that have entered `Processing` (ghost list `started`), in
order, followed by the pending queue, always form a strictly increasing id
sequence — ids are minted in arrival order, so operations reach `Processing`
in strict arrival order among records that remained `Queued`, and the
pending queue will extend that order.  Moreover `cancel` only erases the
cancelled id from the pending queue (first occurrence), leaving the relative
order of the remaining queued operations and the execution history
untouched. -/
theorem c3_fifo_order {s : QState} (h : Reachable s) :
    (s.started ++ s.queue).Pairwise (· < ·) ∧
    ∀ id, (cancel s id).2.queue = s.queue.erase id ∧
      (cancel s id).2.started = s.started := by
  have inv := reachable_inv h
  refine ⟨inv.histSorted, ?_⟩
  intro id
  cases hfind : findOp s.operations id with
  | none =>
      rw [cancel_none_eq hfind]
      have hnq : id ∉ s.queue := by
        intro hmem
        have h1 := inv.queueKeys id hmem
        rw [hfind] at h1
        cases h1
      exact ⟨(List.erase_of_not_mem hnq).symm, rfl⟩
  | some op =>
      by_cases hst : op.status = .queued
      · rw [cancel_ok_eq hfind hst]
        exact ⟨rfl, rfl⟩
      · rw [cancel_invalid_eq hfind hst]
        have hnq : id ∉ s.queue := fun hmem => hst ((inv.queuedIff id op hfind).mpr hmem)
        exact ⟨(List.erase_of_not_mem hnq).symm, rfl⟩

theorem c3_witness :
    (stepA (stepA (stepA (stepA (stepA (stepA (stepA initState (.enq 0)) (.enq 1))
        (.enq 2)) (.cancelA 1)) (.resumeInitA true)) (.resumeExecA (.success 10)))
        (.resumeExecA (.success 11))).started = [0, 2] ∧
    ((stepA (stepA (stepA (stepA (stepA (stepA (stepA initState (.enq 0)) (.enq 1))
        (.enq 2)) (.cancelA 1)) (.resumeInitA true)) (.resumeExecA (.success 10)))
        (.resumeExecA (.success 11))).started ++
      (stepA (stepA (stepA (stepA (stepA (stepA (stepA initState (.enq 0)) (.enq 1))
        (.enq 2)) (.cancelA 1)) (.resumeInitA true)) (.resumeExecA (.success 10)))
        (.resumeExecA (.success 11))).queue).Pairwise (· < ·) := by
  have hr : Reachable (stepA (stepA (stepA (stepA (stepA (stepA (stepA initState
      (.enq 0)) (.enq 1)) (.enq 2)) (.cancelA 1)) (.resumeInitA true))
      (.resumeExecA (.success 10))) (.resumeExecA (.success 11))) :=
    Reachable.step (Reachable.step (Reachable.step (Reachable.step (Reachable.step
      (Reachable.step (Reachable.step Reachable.start (.enq 0)) (.enq 1)) (.enq 2))
      (.cancelA 1)) (.resumeInitA true)) (.resumeExecA (.success 10)))
      (.resumeExecA (.success 11))
  refine ⟨by decide, ?_⟩
  exact (c3_fifo_order hr).1

/-- C6: if readiness initialization fails at the start of a drain step, every
record currently in the pending queue (all of which are `Queued`) is marked
`Failed` with the fixed service-unavailable error, the pending queue becomes
empty, and the drain pass stops. -/
theorem c6_init_failure_cohort {s : QState} (h : Reachable s)
    (hd : s.dpc = .awaitingInit) :
    (∀ id ∈ s.queue, ∃ op op', findOp s.operations id = some op ∧
      op.status = .queued ∧
      findOp (stepA s (.resumeInitA false)).operations id = some op' ∧
      op'.status = .failed ∧ op'.error = some "Veed service not available") ∧
    (stepA s (.resumeInitA false)).queue = [] ∧
    (stepA s (.resumeInitA false)).isProcessing = false ∧
    (stepA s (.resumeInitA false)).dpc = .idle := by
  have inv := reachable_inv h
  rw [stepA_resumeInit_false hd]
  refine ⟨?_, rfl, rfl, rfl⟩
  intro id hmem
  obtain ⟨op, hop⟩ := Option.isSome_iff_exists.mp (inv.queueKeys id hmem)
  have hql := (inv.queuedIff id op hop).mpr hmem
  refine ⟨op, failQueuedOp s.time op, hop, hql, ?_, rfl, rfl⟩
  show findOp (s.queue.foldl (fun m i => updOp m i (failQueuedOp s.time))
    s.operations) id = _
  rw [findOp_foldl_updOp (failQueuedOp s.time) (failQueuedOp_idem s.time)
    s.queue s.operations id, if_pos hmem, hop]
  rfl

theorem c6_witness :
    (stepA (stepA (stepA (stepA initState (.enq 0)) (.enq 1)) (.enq 2))
      (.resumeInitA false)).queue = [] ∧
    (findOp (stepA (stepA (stepA (stepA initState (.enq 0)) (.enq 1)) (.enq 2))
      (.resumeInitA false)).operations 1).map Operation.error =
      some (some "Veed service not available") := by
  have h := c6_init_failure_cohort
    (((Reachable.start.step (.enq 0)).step (.enq 1)).step (.enq 2)) (by decide)
  exact ⟨h.2.1, by decide⟩

/-- C7 (amended): for every call to `cancel id`: if no record with that id
exists it fails with the NotFound error "Operation not found"; if the
record's status is not `Queued` (including an already-`Failed`, e.g.
previously cancelled, record) it fails with the InvalidState error
"Cannot cancel operation in … status" and leaves the record and queue
unchanged; otherwise it removes the id from the pending queue and sets the
record's status to `Failed` with error "Cancelled by user" (the source
capitalizes the message). -/
theorem c7_cancel_contract {s : QState} (_h : Reachable s) (id : Nat) :
    (findOp s.operations id = none →
      (cancel s id).1.success = false ∧
      (cancel s id).1.error = some "Operation not found" ∧
      (cancel s id).2 = s) ∧
    (∀ op, findOp s.operations id = some op → op.status ≠ .queued →
      (cancel s id).1.success = false ∧
      (cancel s id).1.error =
        some ("Cannot cancel operation in " ++ statusText op.status ++ " status") ∧
      (cancel s id).2 = s) ∧
    (∀ op, findOp s.operations id = some op → op.status = .queued →
      (cancel s id).1.success = true ∧
      (cancel s id).2.queue = s.queue.erase id ∧
      ∃ op', findOp (cancel s id).2.operations id = some op' ∧
        op'.status = .failed ∧ op'.error = some "Cancelled by user" ∧
        op'.updatedAt = s.time) := by
  refine ⟨?_, ?_, ?_⟩
  · intro hfind
    rw [cancel_none_eq hfind]
    exact ⟨rfl, rfl, rfl⟩
  · intro op hfind hst
    rw [cancel_invalid_eq hfind hst]
    exact ⟨rfl, rfl, rfl⟩
  · intro op hfind hst
    rw [cancel_ok_eq hfind hst]
    refine ⟨rfl, rfl, ?_⟩
    refine ⟨{ op with
                status := .failed
                error := some "Cancelled by user"
                updatedAt := s.time }, ?_, rfl, rfl, rfl⟩
    show findOp (updOp s.operations id
      (fun o =>
        { o with
            status := .failed
            error := some "Cancelled by user"
            updatedAt := s.time })) id = _
    rw [findOp_updOp, if_pos rfl, hfind]
    rfl

theorem c7_witness :
    (cancel (stepA initState (.enq 0)) 3).1.error = some "Operation not found" ∧
    (cancel (stepA initState (.enq 0)) 0).1.success = true := by
  have h := c7_cancel_contract (Reachable.start.step (.enq 0)) 3
  have h2 := c7_cancel_contract (Reachable.start.step (.enq 0)) 0
  refine ⟨(h.1 (by decide)).2.1, ?_⟩
  exact (h2.2.2 { id := 0, status := .queued, input := 0, createdAt := 0,
                  updatedAt := 0, position := 1, result := none, error := none,
                  progress := none } (by decide) rfl).1

/-- C7 counterexample: the claim as frozen states the cancellation error is
the string "cancelled by user"; the code writes "Cancelled by user"
(capitalized).  At a concrete reachable state the stored error is the
capitalized string, which differs from the claimed one. -/
theorem c7_counterexample :
    (findOp (cancel (stepA initState (.enq 0)) 0).2.operations 0).map
      Operation.error = some (some "Cancelled by user") ∧
    ("Cancelled by user" : String) ≠ "cancelled by user" := by
  exact ⟨by decide, by decide⟩

/-- C8: `getStatus` returns `none` exactly when no record exists; otherwise a
pure snapshot of the record: its status, a 1-based queue position recomputed
by scanning the pending queue while `Queued` and `none` otherwise, the queue
length, progress, timestamps, and the stored `result`/`error` fields, which
are populated exactly when the status is `Completed`/`Failed` respectively.
The call is a pure read: it is modelled as a function of the state that
returns no new state. -/
theorem c8_getStatus_contract {s : QState} (h : Reachable s) (id : Nat) :
    (getStatus s id = none ↔ findOp s.operations id = none) ∧
    (∀ op, findOp s.operations id = some op →
      ∃ snap, getStatus s id = some snap ∧
        snap.operationId = id ∧
        snap.status = op.status ∧
        snap.queueLength = s.queue.length ∧
        snap.progress = op.progress ∧
        snap.createdAt = op.createdAt ∧
        snap.updatedAt = op.updatedAt ∧
        snap.result = op.result ∧
        snap.error = op.error ∧
        (op.status = .queued →
          snap.position = some (posInQueue s.queue id) ∧
          ∃ i, posInQueue s.queue id = i + 1 ∧ s.queue[i]? = some id) ∧
        (op.status ≠ .queued → snap.position = none) ∧
        (snap.result.isSome ↔ snap.status = .completed) ∧
        (snap.error.isSome ↔ snap.status = .failed)) := by
  have inv := reachable_inv h
  constructor
  · unfold getStatus
    cases hfind : findOp s.operations id <;> simp
  · intro op hop
    have hsnap : getStatus s id = some
        { operationId := op.id
          status := op.status
          position := if op.status = .queued then some (posInQueue s.queue id) else none
          queueLength := s.queue.length
          progress := op.progress
          createdAt := op.createdAt
          updatedAt := op.updatedAt
          result := op.result
          error := op.error } := by
      unfold getStatus
      rw [hop]
    refine ⟨_, hsnap, inv.idMatch id op hop, rfl, rfl, rfl, rfl, rfl, rfl, rfl,
      ?_, ?_, ?_, ?_⟩
    · intro hql
      refine ⟨by simp [hql], ?_⟩
      exact posInQueue_spec ((inv.queuedIff id op hop).mp hql)
    · intro hnq
      simp [hnq]
    · exact inv.resultIff id op hop
    · exact inv.errorIff id op hop

theorem c8_witness :
    getStatus (stepA initState (.enq 5)) 0 =
      some { operationId := 0, status := .queued, position := some 1, queueLength := 1,
             progress := none, createdAt := 0, updatedAt := 0, result := none,
             error := none } ∧
    getStatus (stepA initState (.enq 5)) 7 = none := by
  refine ⟨by decide, ?_⟩
  have h := c8_getStatus_contract (Reachable.start.step (.enq 5)) 7
  exact h.1.mpr (by decide)

/-- C4 (amended): `enqueue` fails with the CapacityExceeded error exactly
when the number of records that are `Queued` or `Processing` is at or above
the capacity limit `maxQueueSize = 10`, and then changes nothing.  Otherwise
it mints a fresh unique id — fresh meaning no existing record carries it,
and the ids returned by successful calls are pairwise distinct
(`crypto.randomUUID` is modelled by the counter `nextId`, which stands in
for freshness only; no ordering of id values is asserted) — creates a
record with status `Queued` and appends its id to the pending queue
(`position` is its 1-based position in the pending queue at append time,
`queueLength` the pending-queue length when the call returns), and does not
block on the Executor — though the synchronous drain prefix may already have
promoted the new record to `Processing` by return time.  Across two
back-to-back successful calls the returned positions are non-decreasing (not
strictly increasing, and with intervening drain activity they can decrease —
see the counterexample). -/
theorem c4_enqueue_contract {s : QState} (h : Reachable s) (input input2 : Nat) :
    maxQueueSize = 10 ∧
    ((∃ e, (enqueue s input).1 = Except.error e) ↔
      maxQueueSize ≤ (s.operations.filter (fun q =>
        decide (q.2.status = .queued ∨ q.2.status = .processing))).length) ∧
    ((∃ e, (enqueue s input).1 = Except.error e) → (enqueue s input).2 = s) ∧
    (∀ r, (enqueue s input).1 = Except.ok r →
      findOp s.operations r.operationId = none ∧
      r.position = s.queue.length + 1 ∧
      r.queueLength = (enqueue s input).2.queue.length ∧
      (∃ op', findOp (enqueue s input).2.operations r.operationId = some op' ∧
        op'.createdAt = s.time ∧ op'.input = input ∧
        (op'.status = .queued ∨ op'.status = .processing) ∧
        (op'.status = .queued ↔ r.operationId ∈ (enqueue s input).2.queue))) ∧
    (∀ r r2, (enqueue s input).1 = Except.ok r →
      (enqueue (enqueue s input).2 input2).1 = Except.ok r2 →
      r.position ≤ r2.position ∧ r.operationId ≠ r2.operationId) := by
  have inv := reachable_inv h
  have hdisj : ∀ a ∈ s.operations,
      ¬(decide (a.2.status = .queued) = true ∧
        decide (a.2.status = .processing) = true) := by
    intro a _ hcontra
    obtain ⟨h1, h2⟩ := hcontra
    simp only [decide_eq_true_eq] at h1 h2
    rw [h1] at h2
    cases h2
  have hcount : (s.operations.filter (fun q =>
      decide (q.2.status = .queued ∨ q.2.status = .processing))).length =
      s.queue.length + (if s.currentOperation.isSome then 1 else 0) := by
    simp only [Bool.decide_or]
    rw [length_filter_or s.operations _ _ hdisj, count_queued inv, count_processing inv]
  refine ⟨rfl, ?_, ?_, ?_, ?_⟩
  · rw [hcount]
    by_cases hcap :
        maxQueueSize ≤ s.queue.length + (if s.currentOperation.isSome then 1 else 0)
    · rw [enqueue_full_eq hcap]
      simp [hcap]
    · rw [enqueue_ok_eq hcap]
      simp [hcap]
  · intro he
    obtain ⟨e, he⟩ := he
    by_cases hcap :
        maxQueueSize ≤ s.queue.length + (if s.currentOperation.isSome then 1 else 0)
    · rw [enqueue_full_eq hcap]
    · rw [enqueue_ok_eq hcap] at he
      simp at he
  · intro r hr
    by_cases hcap :
        maxQueueSize ≤ s.queue.length + (if s.currentOperation.isSome then 1 else 0)
    · rw [enqueue_full_eq hcap] at hr
      simp at hr
    · rw [enqueue_ok_eq hcap] at hr
      have hr' : Except.ok
          ({ operationId := s.nextId
             status :=
               match findOp (processQueue (enqInsert s input)).operations s.nextId with
               | some o => o.status
               | none => OperationStatus.queued
             position := s.queue.length + 1
             queueLength := (processQueue (enqInsert s input)).queue.length } :
            EnqueueOk) = Except.ok r := hr
      injection hr' with hr2
      subst hr2
      have inv1 : Inv (enqInsert s input) :=
        inv_insert inv
          { id := s.nextId, status := .queued, input := input, createdAt := s.time,
            updatedAt := s.time, position := s.queue.length + 1, result := none,
            error := none, progress := none } rfl rfl rfl rfl (Nat.le_refl _)
      have inv2 : Inv (processQueue (enqInsert s input)) := inv_processQueue inv1
      have hfind1 : findOp (enqInsert s input).operations s.nextId = some
          { id := s.nextId, status := .queued, input := input, createdAt := s.time,
            updatedAt := s.time, position := s.queue.length + 1, result := none,
            error := none, progress := none } := by
        show findOp (s.operations ++ _) s.nextId = _
        rw [findOp_append_fresh (findOp_fresh inv (Nat.le_refl _)) s.nextId, if_pos rfl]
      have hsome : (findOp (processQueue (enqInsert s input)).operations
          s.nextId).isSome := by
        apply findOp_isSome_of_mem_keys
        rw [processQueue_keys]
        exact mem_keys_of_findOp hfind1
      obtain ⟨op', hop'⟩ := Option.isSome_iff_exists.mp hsome
      have hq1 := fun i hi opx hopx => (inv1.queuedIff i opx hopx).mpr hi
      refine ⟨findOp_fresh inv (Nat.le_refl _), rfl, ?_, ?_⟩
      · rw [enqueue_ok_eq hcap]
      · refine ⟨op', by rw [enqueue_ok_eq hcap]; exact hop', ?_, ?_, ?_, ?_⟩
        · rcases processQueue_status hq1 hfind1 hop' with hsh | ⟨_, hsh⟩ <;> rw [hsh]
        · rcases processQueue_status hq1 hfind1 hop' with hsh | ⟨_, hsh⟩ <;> rw [hsh]
        · rcases processQueue_status hq1 hfind1 hop' with hsh | ⟨_, hsh⟩
          · left; rw [hsh]
          · right; rw [hsh]
        · rw [enqueue_ok_eq hcap]
          exact inv2.queuedIff s.nextId op' hop'
  · intro r r2 hr hr2
    by_cases hcap :
        maxQueueSize ≤ s.queue.length + (if s.currentOperation.isSome then 1 else 0)
    · rw [enqueue_full_eq hcap] at hr
      simp at hr
    · rw [enqueue_ok_eq hcap] at hr hr2
      have hr' : Except.ok
          ({ operationId := s.nextId
             status :=
               match findOp (processQueue (enqInsert s input)).operations s.nextId with
               | some o => o.status
               | none => OperationStatus.queued
             position := s.queue.length + 1
             queueLength := (processQueue (enqInsert s input)).queue.length } :
            EnqueueOk) = Except.ok r := hr
      injection hr' with hrr
      subst hrr
      have inv1 : Inv (enqInsert s input) :=
        inv_insert inv
          { id := s.nextId, status := .queued, input := input, createdAt := s.time,
            updatedAt := s.time, position := s.queue.length + 1, result := none,
            error := none, progress := none } rfl rfl rfl rfl (Nat.le_refl _)
      have hr2' : (enqueue (processQueue (enqInsert s input)) input2).1 =
          Except.ok r2 := hr2
      by_cases hcap2 : maxQueueSize ≤ (processQueue (enqInsert s input)).queue.length +
          (if (processQueue (enqInsert s input)).currentOperation.isSome then 1 else 0)
      · rw [enqueue_full_eq hcap2] at hr2'
        simp at hr2'
      · rw [enqueue_ok_eq hcap2] at hr2'
        have hr2'' : Except.ok
            ({ operationId := (processQueue (enqInsert s input)).nextId
               status :=
                 match findOp (processQueue (enqInsert (processQueue (enqInsert s input))
                     input2)).operations (processQueue (enqInsert s input)).nextId with
                 | some o => o.status
                 | none => OperationStatus.queued
               position := (processQueue (enqInsert s input)).queue.length + 1
               queueLength := (processQueue (enqInsert (processQueue (enqInsert s input))
                 input2)).queue.length } : EnqueueOk) = Except.ok r2 := hr2'
        injection hr2'' with hrr2
        subst hrr2
        constructor
        · show s.queue.length + 1 ≤ (processQueue (enqInsert s input)).queue.length + 1
          have hlen := processQueue_queueLen inv1.queueKeys
          have h2 : (enqInsert s input).queue.length = s.queue.length + 1 := by
            show (s.queue ++ [s.nextId]).length = _
            simp
          omega
        · show s.nextId ≠ (processQueue (enqInsert s input)).nextId
          rw [processQueue_nextId]
          exact Nat.ne_of_lt (Nat.lt_succ_self _)

theorem c4_witness :
    (enqueue initState 0).1 =
      Except.ok { operationId := 0, status := .queued, position := 1, queueLength := 1 } ∧
    findOp initState.operations 0 = none := by
  have h := c4_enqueue_contract Reachable.start 0 1
  refine ⟨by decide, ?_⟩
  exact (h.2.2.2.1 { operationId := 0, status := .queued, position := 1, queueLength := 1 }
    (by decide)).1

/-- C4 counterexample: the frozen claim asserts that across successful calls
the returned positions are monotonically increasing.  On the code this
fails twice over: (a) with intervening drain activity, successful calls can
return positions 3 and then 1; (b) even two immediately consecutive
successful calls can return equal positions 1 and 1 (when the first call's
synchronous drain prefix starts processing the new record at once). -/
theorem c4_counterexample :
    Reachable (stepA (stepA (stepA (stepA (stepA (stepA initState (.enq 0)) (.enq 1))
      (.enq 2)) (.resumeInitA true)) (.resumeExecA (.success 10)))
      (.resumeExecA (.success 11))) ∧
    (enqueue (stepA (stepA initState (.enq 0)) (.enq 1)) 2).1 =
      Except.ok { operationId := 2, status := .queued, position := 3, queueLength := 3 } ∧
    (enqueue (stepA (stepA (stepA (stepA (stepA (stepA initState (.enq 0)) (.enq 1))
      (.enq 2)) (.resumeInitA true)) (.resumeExecA (.success 10)))
      (.resumeExecA (.success 11))) 3).1 =
      Except.ok { operationId := 3, status := .queued, position := 1, queueLength := 1 } ∧
    (1 : Nat) < 3 ∧
    (enqueue (stepA (stepA (stepA initState (.enq 0)) (.resumeInitA true))
      (.resumeExecA (.success 5))) 1).1 =
      Except.ok { operationId := 1, status := .processing, position := 1, queueLength := 0 } ∧
    (enqueue (enqueue (stepA (stepA (stepA initState (.enq 0)) (.resumeInitA true))
      (.resumeExecA (.success 5))) 1).2 2).1 =
      Except.ok { operationId := 2, status := .queued, position := 1, queueLength := 1 } := by
  refine ⟨?_, by decide, by decide, by decide, by decide, by decide⟩
  exact Reachable.step (Reachable.step (Reachable.step (Reachable.step (Reachable.step
    (Reachable.step Reachable.start (.enq 0)) (.enq 1)) (.enq 2)) (.resumeInitA true))
    (.resumeExecA (.success 10))) (.resumeExecA (.success 11))

/-- C5: when the drain loop resumes from the `executeWithTimeout` race
(timeout constant 300000 ms = 5 minutes): a timeout outcome marks the
operation `Failed` with the timeout error, an Executor failure captures the
error into the record, a success completes it — and in every case the
outcome is absorbed: the loop itself continues, immediately marking the next
queued operation `Processing` (or returning to idle when the queue is
empty).  One operation's failure never stops the scheduler. -/
theorem c5_timeout_and_containment {s : QState} (h : Reachable s) (id : Nat)
    (hd : s.dpc = .awaitingExec id) (o : ExecOutcome) :
    operationTimeout = 300000 ∧
    (∃ op', findOp (stepA s (.resumeExecA o)).operations id = some op' ∧
      (o = .timeout → op'.status = .failed ∧ op'.error = some "Operation timed out") ∧
      (∀ e, o = .failure e → op'.status = .failed ∧ op'.error = some e) ∧
      (∀ v, o = .success v → op'.status = .completed ∧ op'.result = some v)) ∧
    (s.queue = [] →
      (stepA s (.resumeExecA o)).dpc = .idle ∧
      (stepA s (.resumeExecA o)).isProcessing = false) ∧
    (∀ j rest, s.queue = j :: rest →
      (stepA s (.resumeExecA o)).dpc = .awaitingExec j ∧
      (stepA s (.resumeExecA o)).queue = rest ∧
      ∃ opj, findOp (stepA s (.resumeExecA o)).operations j = some opj ∧
        opj.status = .processing) := by
  have inv := reachable_inv h
  have hcur : s.currentOperation = some id := inv.dpcExec id hd
  obtain ⟨opc, hopc, hproc⟩ := inv.curMem id hcur
  have hready : s.serviceReady = true := (inv.curExec id hcur).2
  have hidq : id ∉ s.queue := by
    intro hmem
    have h1 := (inv.queuedIff id opc hopc).mpr hmem
    rw [hproc] at h1
    cases h1
  have hfid : findOp (execFinish s id o).operations id =
      some (finishOp o s.time opc) := by
    show findOp (updOp s.operations id (finishOp o s.time)) id = _
    rw [findOp_updOp, if_pos rfl, hopc]
    rfl
  refine ⟨rfl, ?_, ?_, ?_⟩
  · rw [stepA_resumeExec_eq hd o]
    cases hq : s.queue with
    | nil =>
        rw [drainLoop_empty (execFinish s id o) hq]
        refine ⟨finishOp o s.time opc, hfid, ?_, ?_, ?_⟩
        · rintro rfl
          exact ⟨rfl, rfl⟩
        · rintro e rfl
          exact ⟨rfl, rfl⟩
        · rintro v rfl
          exact ⟨rfl, rfl⟩
    | cons j rest =>
        have hjq : j ∈ s.queue := by
          rw [hq]
          exact List.mem_cons_self j rest
        have hjne : ¬id = j := by
          rintro rfl
          exact hidq hjq
        obtain ⟨opj, hopj⟩ := Option.isSome_iff_exists.mp (inv.queueKeys j hjq)
        have hopj2 : findOp (execFinish s id o).operations j = some opj := by
          show findOp (updOp s.operations id (finishOp o s.time)) j = _
          rw [findOp_updOp, if_neg (fun hh => hjne hh.symm), hopj]
        rw [drainLoop_cons (execFinish s id o) hq hready hopj2]
        refine ⟨finishOp o s.time opc, ?_, ?_, ?_, ?_⟩
        · show findOp (updOp (execFinish s id o).operations j _) id = _
          rw [findOp_updOp, if_neg hjne]
          exact hfid
        · rintro rfl
          exact ⟨rfl, rfl⟩
        · rintro e rfl
          exact ⟨rfl, rfl⟩
        · rintro v rfl
          exact ⟨rfl, rfl⟩
  · intro hq
    rw [stepA_resumeExec_eq hd o, drainLoop_empty (execFinish s id o) hq]
    exact ⟨rfl, rfl⟩
  · intro j rest hq
    have hjq : j ∈ s.queue := by
      rw [hq]
      exact List.mem_cons_self j rest
    have hjne : ¬id = j := by
      rintro rfl
      exact hidq hjq
    obtain ⟨opj, hopj⟩ := Option.isSome_iff_exists.mp (inv.queueKeys j hjq)
    have hopj2 : findOp (execFinish s id o).operations j = some opj := by
      show findOp (updOp s.operations id (finishOp o s.time)) j = _
      rw [findOp_updOp, if_neg (fun hh => hjne hh.symm), hopj]
    rw [stepA_resumeExec_eq hd o, drainLoop_cons (execFinish s id o) hq hready hopj2]
    refine ⟨rfl, rfl, ?_⟩
    refine ⟨{ opj with
                status := .processing
                updatedAt := (execFinish s id o).time }, ?_, rfl⟩
    show findOp (updOp (execFinish s id o).operations j _) j = _
    rw [findOp_updOp, if_pos rfl, hopj2]
    rfl

theorem c5_witness :
    operationTimeout = 300000 ∧
    (findOp (stepA (stepA (stepA (stepA initState (.enq 0)) (.enq 1))
      (.resumeInitA true)) (.resumeExecA .timeout)).operations 0).map
      (fun op => (op.status, op.error)) =
      some (.failed, some "Operation timed out") ∧
    (stepA (stepA (stepA (stepA initState (.enq 0)) (.enq 1))
      (.resumeInitA true)) (.resumeExecA .timeout)).dpc = .awaitingExec 1 := by
  have h := c5_timeout_and_containment
    (((Reachable.start.step (.enq 0)).step (.enq 1)).step (.resumeInitA true)) 0
    (by decide) .timeout
  exact ⟨h.1, by decide, (h.2.2.2 1 [] (by decide)).1⟩

/-- C9: on a cleanup sweep, every record that is terminal (`Completed` or
`Failed`) and whose `updatedAt` is more than the retention window
`operationTTL = 1800000` ms (30 minutes) in the past is deleted, so a
subsequent `getStatus` returns not-found; a `Queued` or `Processing` record
is never deleted, and a terminal record within the window survives. -/
theorem c9_reaper {s : QState} (h : Reachable s) (id : Nat) :
    operationTTL = 1800000 ∧
    (∀ op, findOp s.operations id = some op →
      ((op.status = .completed ∨ op.status = .failed) ∧
          operationTTL < s.time - op.updatedAt →
        findOp (stepA s .sweep).operations id = none ∧
        getStatus (stepA s .sweep) id = none) ∧
      (op.status = .queued ∨ op.status = .processing →
        findOp (stepA s .sweep).operations id = some op) ∧
      ((op.status = .completed ∨ op.status = .failed) →
        ¬operationTTL < s.time - op.updatedAt →
        findOp (stepA s .sweep).operations id = some op)) := by
  have inv := reachable_inv h
  refine ⟨rfl, ?_⟩
  intro op hop
  have hfil : findOp (stepA s .sweep).operations id =
      if !(decide ((op.status = .completed ∨ op.status = .failed) ∧
          operationTTL < s.time - op.updatedAt)) then some op else none := by
    rw [stepA_sweep_eq]
    show findOp (s.operations.filter _) id = _
    rw [findOp_filter inv.keysNodup _ id, hop]
  refine ⟨?_, ?_, ?_⟩
  · intro hexp
    have hnone : findOp (stepA s .sweep).operations id = none := by
      rw [hfil]
      simp [hexp.1, hexp.2]
    refine ⟨hnone, ?_⟩
    unfold getStatus
    rw [hnone]
  · intro hlive
    rw [hfil]
    have hnt : ¬((op.status = .completed ∨ op.status = .failed) ∧
        operationTTL < s.time - op.updatedAt) := by
      intro hcontra
      rcases hlive with h1 | h1 <;> rcases hcontra.1 with h2 | h2 <;>
        rw [h1] at h2 <;> cases h2
    simp [hnt]
  · intro hterm hfresh
    rw [hfil]
    have hnt : ¬((op.status = .completed ∨ op.status = .failed) ∧
        operationTTL < s.time - op.updatedAt) := fun hcontra => hfresh hcontra.2
    simp [hnt]

theorem c9_witness :
    getStatus (stepA (stepA (stepA (stepA (stepA initState (.enq 0))
      (.resumeInitA true)) (.resumeExecA (.success 42))) (.tick 2000000)) .sweep) 0 =
      none ∧
    getStatus (stepA (stepA (stepA (stepA initState (.enq 0))
      (.resumeInitA true)) (.resumeExecA (.success 42))) .sweep) 0 ≠ none := by
  have h := c9_reaper
    ((((Reachable.start.step (.enq 0)).step (.resumeInitA true)).step
      (.resumeExecA (.success 42))).step (.tick 2000000)) 0
  refine ⟨((h.2 { id := 0, status := .completed, input := 0, createdAt := 0,
                  updatedAt := 0, position := 1, result := some 42, error := none,
                  progress := none } (by decide)).1 (by decide)).2, by decide⟩

/-- C10: once an operation has been marked `Failed` (in particular because
the timeout guard fired first, after which the still-running Executor call
appears as an orphan whose late progress and late resolution transitions are
discarded by the already-settled race), no later reachable state ever shows
the record `Completed` or with a populated `result`. -/
theorem c10_late_resolution_discarded {s : QState} (h : Reachable s) (id : Nat)
    (op : Operation) (hop : findOp s.operations id = some op)
    (hfail : op.status = .failed) {s' : QState} (h' : ReachableFrom s s') :
    ∀ op', findOp s'.operations id = some op' →
      op'.status = .failed ∧ op'.result = none ∧ op'.status ≠ .completed := by
  have inv := reachable_inv h
  have hmain : ∀ op', findOp s'.operations id = some op' → op'.status = .failed := by
    induction h' with
    | refl =>
        intro op' hop'
        rw [hop] at hop'
        simp only [Option.some.injEq] at hop'
        rw [← hop']
        exact hfail
    | @tail t t' hab hbc ih =>
        intro op' hop'
        obtain ⟨a, ha⟩ := hbc
        have invt := reachable_inv (Relation.ReflTransGen.trans h hab)
        have hidlt : id < t.nextId := by
          have h1 : id < s.nextId := inv.keysLt id op hop
          have h2 : s.nextId ≤ t.nextId := reachableFrom_nextId_mono hab
          omega
        cases hfind : findOp t.operations id with
        | none =>
            have hnone := stepA_findOp_none invt a hfind hidlt
            rw [ha] at hnone
            rw [hnone] at hop'
            cases hop'
        | some opt =>
            have hft : opt.status = .failed := ih opt hfind
            have hss := stepA_status invt a hfind (by rw [ha]; exact hop')
            rcases hss with h1 | ⟨h1, _⟩ | ⟨h1, _⟩ | ⟨h1, _⟩ | ⟨h1, _⟩
            · rw [← h1, hft]
            all_goals rw [h1] at hft
            all_goals simp at hft
  intro op' hop'
  have hst := hmain op' hop'
  have inv' := reachable_inv (Relation.ReflTransGen.trans h h')
  refine ⟨hst, result_none_of_status inv' hop' ?_, ?_⟩
  · rw [hst]
    intro hc
    cases hc
  · rw [hst]
    intro hc
    cases hc

theorem c10_witness :
    (findOp (stepA (stepA (stepA (stepA (stepA initState (.enq 0)) (.resumeInitA true))
      (.resumeExecA .timeout)) (.lateResolveA 0 99)) (.lateProgressA 0 "p")).operations
      0).map (fun op => (op.status, op.result)) = some (.failed, none) := by
  have h := c10_late_resolution_discarded
    ((Reachable.step (Reachable.step (Reachable.step Reachable.start (.enq 0))
      (.resumeInitA true)) (.resumeExecA .timeout))) 0
    { id := 0, status := .failed, input := 0, createdAt := 0, updatedAt := 0,
      position := 1, result := none, error := some "Operation timed out",
      progress := none } (by decide) rfl
    (Relation.ReflTransGen.tail (Relation.ReflTransGen.tail Relation.ReflTransGen.refl
      ⟨.lateResolveA 0 99, rfl⟩) ⟨.lateProgressA 0 "p", rfl⟩)
  have h2 := h
    { id := 0, status := .failed, input := 0, createdAt := 0, updatedAt := 0,
      position := 1, result := none, error := some "Operation timed out",
      progress := some "p" } (by decide)
  rw [show findOp (stepA (stepA (stepA (stepA (stepA initState (.enq 0))
      (.resumeInitA true)) (.resumeExecA .timeout)) (.lateResolveA 0 99))
      (.lateProgressA 0 "p")).operations 0 = some
      { id := 0, status := .failed, input := 0, createdAt := 0, updatedAt := 0,
        position := 1, result := none, error := some "Operation timed out",
        progress := some "p" } from by decide, Option.map_some', h2.1, h2.2.1]

end VeedQueue
